import Mathlib

/-!
# Verification of the RIPP inner-pairing-product argument against its specification

This file shallowly embeds the Rust sources of the `ripp` repository
(`gipa/src/lib.rs`, `ip_proofs/src/tipa/mod.rs`,
`ip_proofs/src/applications/poly_commit.rs`, `dh_commitments/src/pedersen/mod.rs`)
into Lean 4 and proves/refutes the frozen specification claims.

Modelling conventions:
* Group elements of the prime-order groups `G1`, `G2`, `Gt` are represented by
  their discrete logarithms with respect to the fixed generators, i.e. by
  elements of the scalar field `F`.  Group addition becomes field addition,
  scalar action becomes field multiplication, and the pairing
  `e : G1 × G2 → Gt` becomes field multiplication of the exponents.  This is a
  faithful model of the source, which only ever uses the abstract
  prime-order-group operations on these types.
* Fallible Rust code (`Result`) is modelled with `Except`; Rust panics
  (`unwrap`, `assert!`, `unreachable!`) are modelled by `Option` with `none`
  standing for a panic.
* The Fiat-Shamir hash is an abstract function ("oracle") from exactly the data
  the Rust code feeds into the digest to the scalar field.  The rejection
  loop of `recursive_prove` only breaks with a challenge that has an inverse,
  which theorems hypothesise as `oracle _ _ _ ≠ 0`.
-/

namespace Ripp

section BasicDefs

variable {F : Type} [Field F]

/-- Horner evaluation of a dense coefficient list (lowest degree first) at `z`;
this is `DensePolynomial::evaluate` of `ff_fft` on the coefficient vector. -/
def evalList (z : F) (l : List F) : F := l.foldr (fun a acc => a + z * acc) 0

/-- `Σ a_i * b_i` over the common length of the two lists. -/
def dotList (a b : List F) : F := (List.zipWith (· * ·) a b).sum

/-- `ScalarInnerProduct::inner_product` (inner_products crate): `⟨a,b⟩ = Σ a_i·b_i`. -/
def sip (a b : List F) : F := dotList a b

/-- `MultiexponentiationInnerProduct::inner_product` (and
`VariableBaseMSM::multi_scalar_mul`) in the discrete-log model:
`⟨bases, scalars⟩ = Σ scalars_i·bases_i`. -/
def msm (bases scalars : List F) : F := dotList scalars bases

/-- `PedersenCommitment::commit(k, m) = MultiexponentiationInnerProduct(k, m)`
(dh_commitments/src/pedersen/mod.rs). -/
def pedersenCommit (k m : List F) : F := msm k m

/-- Geometric list `[s, s·y, s·y², …]` of a given length; the normal form we
prove the structured commitment keys and their folds equal to. -/
def geomList (s y : F) : Nat → List F
  | 0 => []
  | n + 1 => s :: geomList (s * y) y n

end BasicDefs

section TranscriptPolynomialDefs

variable {F : Type} [Field F]

/-- The list `product_form` built by
`polynomial_evaluation_product_form_from_transcript`
(ip_proofs/src/tipa/mod.rs): starting from an accumulator `p`, each transcript
element `x` contributes the factor `1 + x * p`, and `p` is squared. -/
def productFormList : List F → F → List F
  | [], _ => []
  | x :: xs, p => (1 + x * p) :: productFormList xs (p * p)

/-- `polynomial_evaluation_product_form_from_transcript(transcript, z, r_shift)`
(ip_proofs/src/tipa/mod.rs, lines 312-324): the accumulator starts at
`z * z * r_shift` and the built factors are multiplied together. -/
def polynomial_evaluation_product_form_from_transcript (transcript : List F)
    (z r_shift : F) : F :=
  (productFormList transcript (z * z * r_shift)).prod

/-- The coefficient-doubling loop of `polynomial_coefficients_from_transcript`:
for each transcript element `x`, the current coefficient list `cs` is extended
by `cs.map (· * (x * r))` (the Rust inner loop pushes `coefficients[j] * (x *
power_2_r)` for `j < 2^i = cs.length`), and `r` is squared. -/
def coefficientsLoop : List F → List F → F → List F
  | [], cs, _ => cs
  | x :: xs, cs, r => coefficientsLoop xs (cs ++ cs.map (· * (x * r))) (r * r)

/-- Interleaving of a coefficient list with zero coefficients, as done by
`itertools::interleave` with `coefficients.len() - 1` zeros:
`[c0, c1, …, cm] ↦ [c0, 0, c1, 0, …, 0, cm]`. -/
def interleaveZero : List F → List F
  | [] => []
  | [a] => [a]
  | a :: b :: rest => a :: 0 :: interleaveZero (b :: rest)

/-- `polynomial_coefficients_from_transcript(transcript, r_shift)`
(ip_proofs/src/tipa/mod.rs, lines 326-341). -/
def polynomial_coefficients_from_transcript (transcript : List F) (r_shift : F) :
    List F :=
  interleaveZero (coefficientsLoop transcript [1] r_shift)

end TranscriptPolynomialDefs

section GipaDefs

variable {F : Type} [Field F]

/-- Model of `usize::count_ones` (number of set bits), used by the power-of-two
checks in `gipa/src/lib.rs`. -/
def countOnes (n : Nat) : Nat :=
  if n = 0 then 0 else n % 2 + countOnes (n / 2)
decreasing_by exact Nat.div_lt_self (Nat.pos_of_ne_zero (by assumption)) (by omega)

/-- The common shape of the four per-round folds in `recursive_prove`
(gipa/src/lib.rs, lines 208-239): scale the upper half of the vector by `s` and
add the lower half elementwise.  The code instantiates `s` with `c` for the
left messages and the right keys, and with `c⁻¹` for the right messages and
the left keys. -/
def foldScaleUpper (s : F) (split : Nat) (v : List F) : List F :=
  List.zipWith (fun x y => s * x + y) (v.drop split) (v.take split)

/-- The error enum `InnerProductArgumentError` of `gipa/src/lib.rs`.  The
inner-product and commitment capability crates (not part of the sources under
verification) surface length mismatches with an identically named variant; the
model collapses them into the same type, as `Box<dyn Error>` erases the
distinction. -/
inductive InnerProductArgumentError
  | MessageLengthInvalid (l r : Nat)
  | InnerProductInvalid
deriving DecidableEq, Repr

/-- Modelled from the spec: `ScalarInnerProduct::inner_product` of the
`inner_products` crate (whose source is not available here) errors with
`MessageLengthInvalid` when the two vectors have different lengths and
otherwise returns `Σ a_i·b_i` (spec §4.2, §7). -/
def scalarIpChecked (a b : List F) : Except InnerProductArgumentError F :=
  if a.length = b.length then .ok (sip a b)
  else .error (.MessageLengthInvalid a.length b.length)

/-- Modelled from the spec: `DoublyHomomorphicCommitment::verify` for the
Pedersen commitment — "returns `commit(keys,msgs) == C`" (spec §4.1), where
`commit` is the multiexponentiation inner product, which errors on a length
mismatch. -/
def pedersenVerifyChecked [DecidableEq F] (k m : List F) (c : F) :
    Except InnerProductArgumentError Bool :=
  if k.length = m.length then .ok (decide (pedersenCommit k m = c))
  else .error (.MessageLengthInvalid k.length m.length)

/-- Modelled from the spec: the `Identity` commitment is "the degenerate
commitment with `commit(·, m) = m`" (spec §4.1); verification of a singleton
message is therefore the equality test with the announced output. -/
def identityVerify [DecidableEq F] (m c : F) : Bool := decide (m = c)

/-- One GIPA round record: the pair of cross-commitment triples `(L, R)`
(`com_1`, `com_2` in `recursive_prove`). -/
abbrev GipaStep (F : Type) := (F × F × F) × (F × F × F)

/-- The local binding `com_1` of `recursive_prove` (gipa/src/lib.rs, lines
182-186): `(commit(ck_a_1, m_a_1), commit(ck_b_1, m_b_1), ⟨m_a_1, m_b_1⟩)`
with `m_a_1 = m_a[split..]`, `ck_a_1 = ck_a[..split]`, `m_b_1 = m_b[..split]`,
`ck_b_1 = ck_b[split..]`, under the Pedersen/Pedersen/identity instantiation. -/
def gipaCom1 (m_a m_b ck_a ck_b : List F) (split : Nat) : F × F × F :=
  (pedersenCommit (ck_a.take split) (m_a.drop split),
   pedersenCommit (ck_b.drop split) (m_b.take split),
   sip (m_a.drop split) (m_b.take split))

/-- The local binding `com_2` of `recursive_prove` (gipa/src/lib.rs, lines
187-191), the mirror image of `com_1`. -/
def gipaCom2 (m_a m_b ck_a ck_b : List F) (split : Nat) : F × F × F :=
  (pedersenCommit (ck_a.drop split) (m_a.take split),
   pedersenCommit (ck_b.take split) (m_b.drop split),
   sip (m_a.take split) (m_b.drop split))

/-- The Fiat-Shamir challenge of one GIPA round: the abstract hash applied to
exactly the data of gipa/src/lib.rs lines 196-200 (previous transcript value,
`com_1`, `com_2`). -/
def gipaChal (oracle : F → (F × F × F) → (F × F × F) → F)
    (m_a m_b ck_a ck_b : List F) (split : Nat) (prev : F) : F :=
  oracle prev (gipaCom1 m_a m_b ck_a ck_b split)
    (gipaCom2 m_a m_b ck_a ck_b split)

/-- `GIPA::recursive_prove` of `gipa/src/lib.rs` (lines 148-253) for the
scalar-message instantiation (Pedersen commitments on both sides, identity
commitment for the inner product), in the discrete-log model.

* `oracle prev L R` is the Fiat-Shamir challenge obtained from hashing
  `(counter ‖ prev ‖ L ‖ R)`.
* The result is `none` exactly on the `unreachable!()` branch (a panic).
* In addition to the rounds, base pair and transcript of the Rust return
  value, the model also returns the final folded key pair reached at the base
  case; `recursive_prove` discards it, while the (unavailable)
  `prove_with_aux` of `ip_proofs/src/gipa.rs` exposes it as `ck_base`
  (spec §4.4: the prover obtains "the final folded keys `(ck_L*, ck_R*)`"). -/
def gipaRecProve (oracle : F → (F × F × F) → (F × F × F) → F)
    (m_a m_b ck_a ck_b : List F) (transcript : F) :
    Option (List (GipaStep F) × (F × F) × List F × (F × F)) :=
  if m_a.length = 1 then
    -- base case: emit (m_a[0], m_b[0]) (and the final keys, see above)
    some ([], (m_a.headD 0, m_b.headD 0), [], (ck_a.headD 0, ck_b.headD 0))
  else if h2 : 2 ≤ m_a.length ∧ countOnes m_a.length = 1 then
    -- m_a_1 = m_a[split..], m_a_2 = m_a[..split], ck_a_1 = ck_a[..split], ...
    let split := m_a.length / 2
    let c := gipaChal oracle m_a m_b ck_a ck_b split transcript
    match gipaRecProve oracle
        (foldScaleUpper c split m_a) (foldScaleUpper c⁻¹ split m_b)
        (foldScaleUpper c⁻¹ split ck_a) (foldScaleUpper c split ck_b) c with
    | none => none
    | some (steps, base, ts, ckBase) =>
      some (steps ++ [(gipaCom1 m_a m_b ck_a ck_b split,
        gipaCom2 m_a m_b ck_a ck_b split)], base, ts ++ [c], ckBase)
  else none  -- unreachable!() in the source: a panic
termination_by m_a.length
decreasing_by
  simp only [foldScaleUpper, List.length_zipWith, List.length_drop,
    List.length_take]
  omega

/-- `GIPA::prove` of `gipa/src/lib.rs` (lines 103-145): eager input validation
followed by the recursion, with round records and transcript reversed before
return.  The outer `Option` is `none` only if the recursion panics. -/
def gipaProve [DecidableEq F] (oracle : F → (F × F × F) → (F × F × F) → F)
    (m_a m_b : List F) (t : F) (ck_a ck_b : List F)
    (com_a com_b com_t : F) :
    Option (Except InnerProductArgumentError
      (List (GipaStep F) × (F × F) × List F)) :=
  match (do
      let ip ← scalarIpChecked m_a m_b
      if ip ≠ t then throw .InnerProductInvalid else pure ()
      if countOnes m_a.length ≠ 1 then
        throw (.MessageLengthInvalid m_a.length m_b.length) else pure ()
      let lv ← pedersenVerifyChecked ck_a m_a com_a
      let ok ←
        if lv then do
          let rv ← pedersenVerifyChecked ck_b m_b com_b
          if rv then pure (identityVerify t com_t) else pure false
        else pure false
      if ¬ ok then throw .InnerProductInvalid else pure ()
      : Except InnerProductArgumentError Unit) with
  | .error e => some (.error e)
  | .ok () =>
    match gipaRecProve oracle m_a m_b ck_a ck_b 0 with
    | none => none
    | some (steps, base, ts, _ckBase) =>
      some (.ok (steps.reverse, base, ts.reverse))

/-- The rejection loop deriving the GIPA round challenge
(gipa/src/lib.rs, lines 193-206), modelled operationally with explicit fuel.
`hash n` stands for "`from_random_bytes(D(n.to_be_bytes() ‖ transcript ‖ L ‖
R))` paired with its inverse, when both exist" for the fixed round payload.
The loop body uses the immutable binding `counter_nonce = 0` on every
iteration and never increments it. -/
def gipaChallengeLoop (hash : Nat → Option (F × F)) : Nat → Option (F × F)
  | 0 => none
  | fuel + 1 =>
    match hash 0 with
    | some c => some c
    | none => gipaChallengeLoop hash fuel

/-- The rejection loop deriving the TIPA KZG challenge point
(ip_proofs/src/tipa/mod.rs, lines 174-188 and 250-264), modelled
operationally with explicit fuel: `hash counter_nonce` is tried and
`counter_nonce` is incremented on rejection (`counter_nonce += 1`). -/
def tipaChallengeLoop (hash : Nat → Option F) : Nat → Nat → Option F
  | _, 0 => none
  | counter_nonce, fuel + 1 =>
    match hash counter_nonce with
    | some c => some c
    | none => tipaChallengeLoop hash (counter_nonce + 1) fuel

end GipaDefs

section TipaDefs

variable {F : Type} [Field F]

/-- The TIPA structured reference string (`SRS<P>` in ip_proofs/src/tipa/mod.rs)
in the discrete-log model: G1/G2 elements are their exponents. -/
structure TipaSRS (F : Type) where
  g_alpha_powers : List F
  h_beta_powers : List F
  g_beta : F
  h_alpha : F
deriving DecidableEq

/-- `VerifierSRS<P>` of ip_proofs/src/tipa/mod.rs. -/
structure VerifierSRSModel (F : Type) where
  g : F
  h : F
  g_beta : F
  h_alpha : F
deriving DecidableEq

/-- The loop of `structured_generators_scalar_power` (ip_proofs/src/tipa/
mod.rs, lines 298-310): push `g * pow_s` and multiply `pow_s` by `s`.  The
same loop idiom computes `point_x_powers` in `BivariatePolynomial::evaluate`
and `powers_of_x` in `BivariatePolynomialCommitment::open`
(ip_proofs/src/applications/poly_commit.rs, lines 101-106 and 164-169). -/
def sgspLoop : Nat → F → F → F → List F
  | 0, _, _, _ => []
  | n + 1, g, s, pow_s => g * pow_s :: sgspLoop n g s (pow_s * s)

/-- `structured_generators_scalar_power(num, g, s) = [g, s·g, s²·g, …]` of
length `num`. -/
def structured_generators_scalar_power (num : Nat) (g s : F) : List F :=
  sgspLoop num g s 1

/-- `TIPA::setup` (ip_proofs/src/tipa/mod.rs, lines 122-136) for trapdoors
`α, β`: the generators `g`, `h` have exponent `1`. -/
def tipaSetup (alpha beta : F) (size : Nat) : TipaSRS F :=
  { g_alpha_powers := structured_generators_scalar_power (2 * size - 1) 1 alpha
    h_beta_powers := structured_generators_scalar_power (2 * size - 1) 1 beta
    g_beta := beta
    h_alpha := alpha }

/-- `Iterator::step_by(2)`: every second element, starting with the first. -/
def stepBy2 : List F → List F
  | [] => []
  | [a] => [a]
  | a :: _ :: rest => a :: stepBy2 rest

/-- `SRS::get_commitment_keys` (ip_proofs/src/tipa/mod.rs, lines 85-89):
the even-indexed subsequences `(ck_1, ck_2)` of the `β`-powers in G2 and the
`α`-powers in G1. -/
def get_commitment_keys (srs : TipaSRS F) : List F × List F :=
  (stepBy2 srs.h_beta_powers, stepBy2 srs.g_alpha_powers)

/-- `SRS::get_verifier_key` (ip_proofs/src/tipa/mod.rs, lines 91-98). -/
def get_verifier_key (srs : TipaSRS F) : VerifierSRSModel F :=
  { g := srs.g_alpha_powers.headD 0
    h := srs.h_beta_powers.headD 0
    g_beta := srs.g_beta
    h_alpha := srs.h_alpha }

/-- Truncation of trailing zero coefficients, as performed by
`DensePolynomial::from_coefficients_vec`/`from_coefficients_slice` and by the
dense-polynomial arithmetic of `ff_fft`. -/
def stripTrailingZeros [DecidableEq F] : List F → List F
  | [] => []
  | a :: rest =>
    match stripTrailingZeros rest with
    | [] => if a = 0 then [] else [a]
    | b :: t => a :: b :: t

/-- Synthetic (Ruffini) division of a dense coefficient list by the monic
linear polynomial `X - c`: returns `(quotient, remainder)`.  This is dense
euclidean division (`ff_fft`'s `Div` on `DensePolynomial`) specialised to the
divisor `X - c` used in `KZG::open` and `prove_with_srs_shift`; on an input
carrying trailing zeros the quotient carries trailing zeros where `ff_fft`
would drop them, which is immaterial to every use (the quotient coefficients
are only resized and fed to a multiexponentiation). -/
def polyDivXSubC : List F → F → List F × F
  | [], _ => ([], 0)
  | a :: rest, c =>
    let (q, r) := polyDivXSubC rest c
    (r :: q, a + c * r)

/-- Subtraction of the constant polynomial `C v` from a dense coefficient
list, with the normalisation `ff_fft` applies to arithmetic results. -/
def subConst [DecidableEq F] (p : List F) (v : F) : List F :=
  stripTrailingZeros
    (match p with
     | [] => [-v]
     | a :: rest => (a - v) :: rest)

/-- `Vec::resize(n, 0)`: truncate or zero-pad to length `n`. -/
def listResize (l : List F) (n : Nat) : List F :=
  l.take n ++ List.replicate (n - l.length) 0

/-- `TIPAProof` (ip_proofs/src/tipa/mod.rs, lines 45-68) for the scalar
instantiation: GIPA round records, base pair `(a*, b*)`, final commitment keys
`(ck_L*, ck_R*)` and the two KZG well-formedness proofs `(π_L, π_R)`. -/
structure TipaProof (F : Type) where
  gipa_steps : List (GipaStep F)
  r_base : F × F
  final_ck : F × F
  final_ck_proof : F × F
deriving DecidableEq

/-- Modelled from the spec: `GIPA::prove_with_aux` of `ip_proofs/src/gipa.rs`
(that file is not among the available sources; only `gipa/src/lib.rs` is).
Per spec §4.4 the prover "runs GIPA to obtain the round records, final folded
keys `(ck_L*, ck_R*)`, and transcript".  The round records are reversed into
the wire order of spec §6 (largest halving first).  The transcript is returned
in recursion-return order (innermost round first): this is the unique order
under which the layout equation of spec §4.4 — `ck_L*` has coefficients `f_L`
with `ck_L* = Σ f_L,j·(β^{2j}·h)` for `f_L` built by
`polynomial_coefficients_from_transcript` — holds, since the innermost
challenge multiplies the smallest key power. -/
def gipaProveWithAux (oracle : F → (F × F × F) → (F × F × F) → F)
    (m_a m_b ck_a ck_b : List F) :
    Option ((List (GipaStep F) × (F × F)) × (List F × (F × F))) :=
  (gipaRecProve oracle m_a m_b ck_a ck_b 0).map
    (fun x => ((x.1.reverse, x.2.1), (x.2.2.1, x.2.2.2)))

/-- Modelled from the spec: the verifier-side fold of
`GIPA::verify_recursive_challenge_transcript` (`ip_proofs/src/gipa.rs`, not
among the available sources).  Per spec §4.3 it "recomputes each `c_i` from
`(counter ‖ prev ‖ L_i ‖ R_i)` identically" and folds each commitment as
`C_X ← c·L_X + C_X + c⁻¹·R_X` (the output-linear form; the previous challenge
starts at the additive identity), consuming the round records in wire order
(largest halving first).  Challenges are collected in processing order. -/
def gipaVerifyFold (oracle : F → (F × F × F) → (F × F × F) → F)
    (com : F × F × F) (prev : F) :
    List (GipaStep F) → (F × F × F) × List F
  | [] => (com, [])
  | (l, r) :: rest =>
    let c := oracle prev l r
    let com' : F × F × F :=
      (c * l.1 + com.1 + c⁻¹ * r.1,
       c * l.2.1 + com.2.1 + c⁻¹ * r.2.1,
       c * l.2.2 + com.2.2 + c⁻¹ * r.2.2)
    ((gipaVerifyFold oracle com' c rest).1,
     c :: (gipaVerifyFold oracle com' c rest).2)

/-- Modelled from the spec: `GIPA::verify_recursive_challenge_transcript`
returns the reduced commitment triple and the recomputed challenge transcript,
the latter reversed into the same (innermost-first) order as the prover's aux
transcript, so that `verify_with_srs_shift` uses bit-identical data. -/
def gipaVerifyRecursiveChallengeTranscript
    (oracle : F → (F × F × F) → (F × F × F) → F)
    (com : F × F × F) (steps : List (GipaStep F)) : (F × F × F) × List F :=
  ((gipaVerifyFold oracle com 0 steps).1,
   (gipaVerifyFold oracle com 0 steps).2.reverse)

/-- `TIPA::prove_with_srs_shift` (ip_proofs/src/tipa/mod.rs, lines 147-223)
for the scalar instantiation.  `oracle` is the GIPA round hash, `kzgOracle`
the KZG-challenge hash of `(counter ‖ transcript[0] ‖ ck_L* ‖ ck_R*)`.
`none` models the panics, in source order: the `x.inverse().unwrap()` on a
zero transcript element, the `r_shift.inverse().unwrap()` for `r_shift = 0`,
the `assert_eq!` on the coefficient length, and `transcript.first().unwrap()`
on an empty transcript. -/
def tipaProveWithSrsShift [DecidableEq F]
    (oracle : F → (F × F × F) → (F × F × F) → F)
    (kzgOracle : F → F → F → F)
    (srs : TipaSRS F) (m_a m_b ck_a ck_b : List F) (r_shift : F) :
    Option (TipaProof F) :=
  match gipaProveWithAux oracle m_a m_b ck_a ck_b with
  | none => none
  | some ((steps, base), (transcript, ckBase)) =>
    if transcript.contains 0 then none
    else if r_shift = 0 then none
    else
      let transcript_inverse := transcript.map (·⁻¹)
      let r_inverse := r_shift⁻¹
      let ck_b_polynomial :=
        stripTrailingZeros (polynomial_coefficients_from_transcript transcript 1)
      let ck_a_polynomial :=
        stripTrailingZeros
          (polynomial_coefficients_from_transcript transcript_inverse r_inverse)
      if ck_a_polynomial.length ≠ srs.g_alpha_powers.length then none
      else
        match transcript.head? with
        | none => none
        | some t0 =>
          let c := kzgOracle t0 ckBase.1 ckBase.2
          let v_a := polynomial_evaluation_product_form_from_transcript
            transcript_inverse c r_inverse
          let v_b := polynomial_evaluation_product_form_from_transcript
            transcript c 1
          let q_a := (polyDivXSubC (subConst ck_a_polynomial v_a) c).1
          let q_b := (polyDivXSubC (subConst ck_b_polynomial v_b) c).1
          let proof_a := msm srs.h_beta_powers
            (listResize q_a srs.g_alpha_powers.length)
          let proof_b := msm srs.g_alpha_powers
            (listResize q_b srs.g_alpha_powers.length)
          some { gipa_steps := steps, r_base := base, final_ck := ckBase
                 final_ck_proof := (proof_a, proof_b) }

/-- `TIPA::prove` (ip_proofs/src/tipa/mod.rs, lines 137-143): the shift scalar
defaults to `1`. -/
def tipaProve [DecidableEq F]
    (oracle : F → (F × F × F) → (F × F × F) → F)
    (kzgOracle : F → F → F → F)
    (srs : TipaSRS F) (m_a m_b ck_a ck_b : List F) : Option (TipaProof F) :=
  tipaProveWithSrsShift oracle kzgOracle srs m_a m_b ck_a ck_b 1

/-- `TIPA::verify_with_srs_shift` (ip_proofs/src/tipa/mod.rs, lines 234-295)
for the scalar instantiation, in the discrete-log model where
`e(x·g₁, y·g₂) = (x*y)·gₜ`.  `none` models the panics
(`x.inverse().unwrap()` on a zero recomputed challenge,
`transcript.first().unwrap()` on an empty transcript,
`r_shift.inverse().unwrap()` for `r_shift = 0`).  The identity commitment
ignores its key `ck_t`. -/
def tipaVerifyWithSrsShift [DecidableEq F]
    (oracle : F → (F × F × F) → (F × F × F) → F)
    (kzgOracle : F → F → F → F)
    (v_srs : VerifierSRSModel F) (_ck_t : F) (com : F × F × F)
    (proof : TipaProof F) (r_shift : F) : Option Bool :=
  let vr := gipaVerifyRecursiveChallengeTranscript oracle com proof.gipa_steps
  let base_com := vr.1
  let transcript := vr.2
  if transcript.contains 0 then none
  else
    match transcript.head? with
    | none => none
    | some t0 =>
      if r_shift = 0 then none
      else
        let transcript_inverse := transcript.map (·⁻¹)
        let c := kzgOracle t0 proof.final_ck.1 proof.final_ck.2
        let v_a := polynomial_evaluation_product_form_from_transcript
          transcript_inverse c r_shift⁻¹
        let v_b := polynomial_evaluation_product_form_from_transcript
          transcript c 1
        let ck_a_valid :=
          decide (v_srs.g * (proof.final_ck.1 - v_a * v_srs.h)
            = (v_srs.g_beta - c * v_srs.g) * proof.final_ck_proof.1)
        let ck_b_valid :=
          decide ((proof.final_ck.2 - v_b * v_srs.g) * v_srs.h
            = proof.final_ck_proof.2 * (v_srs.h_alpha - c * v_srs.h))
        let t_base := proof.r_base.1 * proof.r_base.2
        let base_valid :=
          decide (pedersenCommit [proof.final_ck.1] [proof.r_base.1] = base_com.1)
          && decide (pedersenCommit [proof.final_ck.2] [proof.r_base.2]
              = base_com.2.1)
          && identityVerify t_base base_com.2.2
        some (ck_a_valid && ck_b_valid && base_valid)

/-- `TIPA::verify` (ip_proofs/src/tipa/mod.rs, lines 225-232): the shift
scalar defaults to `1`. -/
def tipaVerify [DecidableEq F]
    (oracle : F → (F × F × F) → (F × F × F) → F)
    (kzgOracle : F → F → F → F)
    (v_srs : VerifierSRSModel F) (ck_t : F) (com : F × F × F)
    (proof : TipaProof F) : Option Bool :=
  tipaVerifyWithSrsShift oracle kzgOracle v_srs ck_t com proof 1

end TipaDefs

section PolyCommitDefs

variable {F : Type} [Field F]

/-- `KZG::open` (ip_proofs/src/applications/poly_commit.rs, lines 68-80) in
the discrete-log model: assert the SRS is long enough (modelled as the
`Option` guard; `degree() + 1` is the length of the normalised coefficient
vector, at least 1), divide the polynomial directly by `X - point` ignoring
the remainder, resize the quotient coefficients to the SRS length and
multiexponentiate. -/
def kzgOpen [DecidableEq F] (powers p : List F) (point : F) : Option F :=
  if Nat.max 1 (stripTrailingZeros p).length ≤ powers.length then
    some (msm powers (listResize (polyDivXSubC p point).1 powers.length))
  else none

/-- `BivariatePolynomial::evaluate` (ip_proofs/src/applications/poly_commit.rs,
lines 98-111): build `point_x_powers = [1, x, x², …]` by the accumulator loop,
then `Σ x^i · p_i(y)` over the rows. -/
def bivariate_evaluate (y_polynomials : List (List F)) (point : F × F) : F :=
  (List.zipWith (fun x_power y_polynomial => x_power * evalList point.2 y_polynomial)
    (sgspLoop y_polynomials.length 1 point.1 1) y_polynomials).sum

/-- The row-building loop of `UnivariatePolynomialCommitment::bivariate_form`:
`n` rows of width `w` are taken in order from the (already padded) coefficient
stream; each row is normalised by `from_coefficients_slice`. -/
def bivariateRows [DecidableEq F] (w : Nat) : Nat → List F → List (List F)
  | 0, _ => []
  | n + 1, l => stripTrailingZeros (l.take w) :: bivariateRows w n (l.drop w)

/-- `UnivariatePolynomialCommitment::bivariate_form(bivariate_degree, p)`
(ip_proofs/src/applications/poly_commit.rs, lines 229-243): the coefficient
stream is `p.coeffs` chained with zeros and truncated to
`(bivariate_degree+1)²` entries, then cut into `bivariate_degree+1` rows of
width `bivariate_degree+1`. -/
def bivariate_form [DecidableEq F] (bivariate_degree : Nat) (coeffs : List F) :
    List (List F) :=
  bivariateRows (bivariate_degree + 1) (bivariate_degree + 1)
    (listResize coeffs ((bivariate_degree + 1) * (bivariate_degree + 1)))

/-- Ceiling square root on naturals. -/
def ceilSqrt (n : Nat) : Nat :=
  if Nat.sqrt n * Nat.sqrt n = n then Nat.sqrt n else Nat.sqrt n + 1

/-- `UnivariatePolynomialCommitment::bivariate_degrees(d)`
(ip_proofs/src/applications/poly_commit.rs, lines 225-227):
`⌈√(d+1)⌉.next_power_of_two() - 1`.  The source computes the ceiling square
root through `f64` (`((d+1) as f64).sqrt().ceil()`), which agrees with the
exact `ceilSqrt` for every `d + 1 < 2^52` since `f64` square root is correctly
rounded; `usize::next_power_of_two` is `2^⌈log₂ ·⌉`. -/
def bivariate_degrees (univariate_degree : Nat) : Nat :=
  2 ^ Nat.clog 2 (ceilSqrt (univariate_degree + 1)) - 1

/-- The evaluation-point reduction of `UnivariatePolynomialCommitment::open`
and `::verify` (ip_proofs/src/applications/poly_commit.rs, lines 266-269 and
280-282): `y = z`, `x = z.pow(bivariate_degree + 1)`. -/
def univariateOpenPoint (bivariate_degree : Nat) (z : F) : F × F :=
  (z ^ (bivariate_degree + 1), z)

end PolyCommitDefs

section ConcreteDefs

/-- Concrete scalar field for witnesses and counterexamples. -/
abbrev Fp : Type := ZMod 101

instance : Fact (Nat.Prime 101) := ⟨by norm_num⟩

/-- A concrete GIPA round oracle (constant, invertible challenge). -/
def constOracle : Fp → (Fp × Fp × Fp) → (Fp × Fp × Fp) → Fp := fun _ _ _ => 2

/-- A concrete KZG-point oracle. -/
def constKzgOracle : Fp → Fp → Fp → Fp := fun _ _ _ => 3

/-- A hash attempt function that rejects counter `0` and accepts every other
counter: a concrete instance of "some counter value hashes to a valid
scalar" while the first attempt fails. -/
def rejectingGipaHash : Nat → Option (Fp × Fp) :=
  fun n => if n = 0 then none else some (1, 1)

/-- Same rejection pattern for the TIPA KZG challenge loop. -/
def rejectingTipaHash : Nat → Option Fp :=
  fun n => if n = 0 then none else some 1

/-- A syntactically well-formed TIPA proof with zero GIPA rounds, as produced
for vectors of length 1 (or forged); its challenge transcript is empty. -/
def emptyRoundsProof : TipaProof Fp :=
  { gipa_steps := [], r_base := (1, 1), final_ck := (1, 1)
    final_ck_proof := (1, 1) }

end ConcreteDefs

section BasicLemmas

variable {F : Type} [Field F]

@[simp] theorem evalList_nil (z : F) : evalList z ([] : List F) = 0 := rfl

@[simp] theorem evalList_cons (z a : F) (l : List F) :
    evalList z (a :: l) = a + z * evalList z l := rfl

@[simp] theorem dotList_nil_left (b : List F) : dotList ([] : List F) b = 0 := rfl

@[simp] theorem dotList_nil_right (a : List F) : dotList a ([] : List F) = 0 := by
  simp [dotList]

@[simp] theorem dotList_cons (a b : F) (as bs : List F) :
    dotList (a :: as) (b :: bs) = a * b + dotList as bs := by
  simp [dotList]

theorem evalList_append (z : F) (l₁ l₂ : List F) :
    evalList z (l₁ ++ l₂) = evalList z l₁ + z ^ l₁.length * evalList z l₂ := by
  induction l₁ with
  | nil => simp
  | cons a t ih => simp [evalList_cons, ih, pow_succ]; ring

theorem evalList_map_mul (z w : F) (l : List F) :
    evalList z (l.map (· * w)) = evalList z l * w := by
  induction l with
  | nil => simp
  | cons a t ih => simp [evalList_cons, ih]; ring

@[simp] theorem evalList_replicate_zero (z : F) (m : Nat) :
    evalList z (List.replicate m (0 : F)) = 0 := by
  induction m with
  | zero => rfl
  | succ m ih => simp [List.replicate_succ, ih]

/-- Splitting a dot product at index `n`. -/
theorem dotList_take_add_drop : ∀ (n : Nat) (a b : List F),
    dotList a b = dotList (a.take n) (b.take n) + dotList (a.drop n) (b.drop n) := by
  intro n
  induction n with
  | zero => simp [dotList]
  | succ n ih =>
    intro a b
    cases a with
    | nil => simp [dotList]
    | cons x xs =>
      cases b with
      | nil => simp [dotList]
      | cons y ys =>
        simp only [List.take_succ_cons, List.drop_succ_cons, dotList_cons]
        rw [ih]
        ring

@[simp] theorem pedersenCommit_singleton (k m : F) :
    pedersenCommit [k] [m] = m * k + 0 := rfl

@[simp] theorem sip_singleton (a b : F) : sip [a] [b] = a * b + 0 := rfl

end BasicLemmas

section TranscriptPolynomialLemmas

variable {F : Type} [Field F]

@[simp] theorem interleaveZero_nil : interleaveZero ([] : List F) = [] := rfl

theorem evalList_interleaveZero (z : F) (l : List F) :
    evalList z (interleaveZero l) = evalList (z * z) l := by
  induction l with
  | nil => rfl
  | cons a rest ih =>
    cases rest with
    | nil => simp [interleaveZero, evalList]
    | cons b t =>
      simp only [interleaveZero, evalList_cons] at *
      rw [ih]
      ring

/-- Evaluating the coefficient-doubling loop: each transcript element `x`
contributes a factor `1 + x * r * z^(cs.length)`, with `cs` doubling in length
and `r` squaring. -/
theorem evalList_coefficientsLoop (z : F) :
    ∀ (t : List F) (cs : List F) (r : F),
      evalList z (coefficientsLoop t cs r)
        = evalList z cs * (productFormList t (z ^ cs.length * r)).prod := by
  intro t
  induction t with
  | nil => intro cs r; simp [coefficientsLoop, productFormList]
  | cons x xs ih =>
    intro cs r
    simp only [coefficientsLoop, productFormList, List.prod_cons]
    rw [ih, evalList_append, evalList_map_mul]
    have hlen : (cs ++ cs.map (· * (x * r))).length = cs.length + cs.length := by
      simp
    rw [hlen, pow_add]
    ring_nf

theorem productFormList_append_singleton (t : List F) (c : F) : ∀ p : F,
    productFormList (t ++ [c]) p
      = productFormList t p ++ [1 + c * p ^ (2 ^ t.length)] := by
  induction t with
  | nil => intro p; simp [productFormList]
  | cons x xs ih =>
    intro p
    rw [List.cons_append]
    simp only [productFormList, List.length_cons]
    rw [ih]
    have h2 : (p * p) ^ (2 : Nat) ^ xs.length = p ^ 2 ^ (xs.length + 1) := by
      rw [← sq, ← pow_mul, pow_succ']
    rw [h2, List.cons_append]

theorem coefficientsLoop_length (t cs : List F) (r : F) :
    (coefficientsLoop t cs r).length = cs.length * 2 ^ t.length := by
  induction t generalizing cs r with
  | nil => simp [coefficientsLoop]
  | cons x xs ih =>
    simp only [coefficientsLoop, ih, List.length_append, List.length_map,
      List.length_cons]
    ring

theorem interleaveZero_length (l : List F) :
    (interleaveZero l).length = 2 * l.length - 1 := by
  induction l with
  | nil => rfl
  | cons a rest ih =>
    cases rest with
    | nil => rfl
    | cons b t =>
      simp only [interleaveZero, List.length_cons] at *
      omega

theorem interleaveZero_getLast? (l : List F) :
    (interleaveZero l).getLast? = l.getLast? := by
  induction l with
  | nil => rfl
  | cons a rest ih =>
    cases rest with
    | nil => rfl
    | cons b t =>
      have hne : interleaveZero (b :: t) ≠ [] := by
        cases t <;> simp [interleaveZero]
      simp only [interleaveZero]
      rw [List.getLast?_cons_cons, List.getLast?_cons_cons,
        show (0 : F) :: interleaveZero (b :: t)
          = [0] ++ interleaveZero (b :: t) from rfl,
        List.getLast?_append_of_ne_nil _ hne, ih]

theorem coefficientsLoop_getLast?_ne_zero :
    ∀ (t : List F), (∀ x ∈ t, x ≠ 0) → ∀ (cs : List F) (r : F), r ≠ 0 →
      ∀ v, cs.getLast? = some v → v ≠ 0 →
      ∃ w, (coefficientsLoop t cs r).getLast? = some w ∧ w ≠ 0 := by
  intro t
  induction t with
  | nil => intro _ cs r _ v hv hvne; exact ⟨v, hv, hvne⟩
  | cons x xs ih =>
    intro ht cs r hr v hv hvne
    have hx : x ≠ 0 := ht x (List.mem_cons_self _ _)
    have hxs : ∀ y ∈ xs, y ≠ 0 := fun y hy => ht y (List.mem_cons_of_mem _ hy)
    simp only [coefficientsLoop]
    have hcs : cs ≠ [] := by
      intro h; rw [h] at hv; simp at hv
    have hmap : (cs.map (· * (x * r))).getLast? = some (v * (x * r)) := by
      rw [List.getLast?_map, hv]; rfl
    have happ : (cs ++ cs.map (· * (x * r))).getLast? = some (v * (x * r)) := by
      rw [List.getLast?_append_of_ne_nil, hmap]
      intro h
      exact hcs (List.map_eq_nil.mp h)
    exact ih hxs _ (r * r) (mul_ne_zero hr hr) (v * (x * r)) happ
      (mul_ne_zero hvne (mul_ne_zero hx hr))

end TranscriptPolynomialLemmas

section PolyArithLemmas

variable {F : Type} [Field F]

theorem evalList_of_stripTrailingZeros_eq_nil [DecidableEq F] (z : F) :
    ∀ l : List F, stripTrailingZeros l = [] → evalList z l = 0 := by
  intro l
  induction l with
  | nil => intro _; rfl
  | cons a rest ih =>
    intro h
    simp only [stripTrailingZeros] at h
    rcases hr : stripTrailingZeros rest with _ | ⟨b, t⟩
    · rw [hr] at h
      by_cases ha : a = 0
      · subst ha; simp [ih hr]
      · simp [ha] at h
    · rw [hr] at h; simp at h

theorem evalList_stripTrailingZeros [DecidableEq F] (z : F) (l : List F) :
    evalList z (stripTrailingZeros l) = evalList z l := by
  induction l with
  | nil => rfl
  | cons a rest ih =>
    simp only [stripTrailingZeros]
    rcases hr : stripTrailingZeros rest with _ | ⟨b, t⟩
    · have h0 : evalList z rest = 0 :=
        evalList_of_stripTrailingZeros_eq_nil z rest hr
      by_cases ha : a = 0
      · subst ha; simp [h0]
      · simp [ha, h0]
    · rw [hr] at ih
      simp [evalList_cons, ih]

theorem stripTrailingZeros_eq_self [DecidableEq F] :
    ∀ (l : List F) (w : F), l.getLast? = some w → w ≠ 0 →
      stripTrailingZeros l = l := by
  intro l
  induction l with
  | nil => intro w hw _; simp at hw
  | cons a rest ih =>
    intro w hw hwne
    cases hr : rest with
    | nil =>
      subst hr
      simp only [List.getLast?_singleton, Option.some.injEq] at hw
      subst hw
      simp [stripTrailingZeros, hwne]
    | cons b t =>
      subst hr
      rw [List.getLast?_cons_cons] at hw
      have hstrip := ih w hw hwne
      conv_lhs => rw [stripTrailingZeros]
      rw [hstrip]

theorem stripTrailingZeros_length_le [DecidableEq F] (l : List F) :
    (stripTrailingZeros l).length ≤ l.length := by
  induction l with
  | nil => simp [stripTrailingZeros]
  | cons a rest ih =>
    simp only [stripTrailingZeros]
    rcases hr : stripTrailingZeros rest with _ | ⟨b, t⟩
    · by_cases ha : a = 0 <;> simp [ha]
    · rw [hr] at ih
      simp only [List.length_cons] at ih ⊢
      omega

theorem polyDivXSubC_snd [DecidableEq F] (c : F) :
    ∀ l : List F, (polyDivXSubC l c).2 = evalList c l := by
  intro l
  induction l with
  | nil => rfl
  | cons a rest ih => simp [polyDivXSubC, ih, evalList_cons, mul_comm]

theorem polyDivXSubC_eval (z c : F) :
    ∀ l : List F,
      evalList z l = (z - c) * evalList z (polyDivXSubC l c).1
        + (polyDivXSubC l c).2 := by
  intro l
  induction l with
  | nil => simp [polyDivXSubC]
  | cons a rest ih =>
    simp only [polyDivXSubC, evalList_cons]
    rw [ih]
    ring

theorem polyDivXSubC_fst_length [DecidableEq F] (c : F) (l : List F) :
    (polyDivXSubC l c).1.length = l.length := by
  induction l with
  | nil => rfl
  | cons a rest ih => simp [polyDivXSubC, ih]

theorem evalList_subConst [DecidableEq F] (z v : F) (p : List F) :
    evalList z (subConst p v) = evalList z p - v := by
  unfold subConst
  rw [evalList_stripTrailingZeros]
  cases p with
  | nil => simp
  | cons a rest => simp [evalList_cons]; ring

theorem subConst_length_le [DecidableEq F] (v : F) (p : List F) :
    (subConst p v).length ≤ Nat.max 1 p.length := by
  cases p with
  | nil =>
    have h := stripTrailingZeros_length_le (F := F) [-v]
    simpa [subConst] using h
  | cons a rest =>
    have h := stripTrailingZeros_length_le (F := F) ((a - v) :: rest)
    simp only [subConst]
    simp only [List.length_cons] at h ⊢
    have hmax : Nat.max 1 (rest.length + 1) = rest.length + 1 :=
      Nat.max_eq_right (by omega)
    omega

@[simp] theorem listResize_length (l : List F) (n : Nat) :
    (listResize l n).length = n := by
  simp only [listResize, List.length_append, List.length_take,
    List.length_replicate]
  omega

theorem evalList_listResize (z : F) (l : List F) (n : Nat)
    (h : l.length ≤ n) : evalList z (listResize l n) = evalList z l := by
  unfold listResize
  rw [List.take_of_length_le h, evalList_append]
  simp

/-- `Vec::resize` absorbs trailing zeros that are already present. -/
theorem listResize_append_replicate_zero (l : List F) (m n : Nat)
    (h : l.length + m ≤ n) :
    listResize (l ++ List.replicate m 0) n = listResize l n := by
  unfold listResize
  rw [List.take_of_length_le (by simp; omega),
    List.take_of_length_le (by omega), List.append_assoc]
  congr 1
  rw [← List.replicate_add]
  congr 1
  simp only [List.length_append, List.length_replicate]
  omega

/-- Dividing after dropping a zero tail yields the same quotient up to a zero
tail. -/
theorem polyDivXSubC_append_replicate_zero [DecidableEq F] (c : F) :
    ∀ (l : List F) (m : Nat),
      polyDivXSubC (l ++ List.replicate m 0) c
        = ((polyDivXSubC l c).1 ++ List.replicate m 0, (polyDivXSubC l c).2) := by
  intro l
  induction l with
  | nil =>
    intro m
    induction m with
    | zero => simp [polyDivXSubC]
    | succ m ihm =>
      simp only [List.nil_append, List.replicate_succ, polyDivXSubC] at *
      rw [ihm]
      simp [polyDivXSubC]
  | cons a rest ih =>
    intro m
    simp only [List.cons_append, polyDivXSubC]
    simp only [List.append_eq] at *
    rw [ih m]

end PolyArithLemmas

section GeomLemmas

variable {F : Type} [Field F]

@[simp] theorem geomList_zero (s y : F) : geomList s y 0 = [] := rfl

@[simp] theorem geomList_succ (s y : F) (n : Nat) :
    geomList s y (n + 1) = s :: geomList (s * y) y n := rfl

@[simp] theorem geomList_length (s y : F) : ∀ n, (geomList s y n).length = n := by
  intro n
  induction n generalizing s with
  | zero => rfl
  | succ n ih => simp [geomList, ih]

theorem geomList_take (s y : F) : ∀ (n m : Nat),
    (geomList s y (n + m)).take n = geomList s y n := by
  intro n
  induction n generalizing s with
  | zero => intro m; rfl
  | succ n ih =>
    intro m
    rw [Nat.succ_add]
    simp [geomList, ih]

theorem geomList_drop (s y : F) : ∀ (n m : Nat),
    (geomList s y (n + m)).drop n = geomList (s * y ^ n) y m := by
  intro n
  induction n generalizing s with
  | zero => intro m; simp
  | succ n ih =>
    intro m
    rw [Nat.succ_add]
    simp only [geomList, List.drop_succ_cons, ih (s := s * y)]
    congr 1
    ring

theorem geomList_zipWith_lin (t : F) : ∀ (n : Nat) (s₁ s₂ y : F),
    List.zipWith (fun x v => t * x + v) (geomList s₁ y n) (geomList s₂ y n)
      = geomList (t * s₁ + s₂) y n := by
  intro n
  induction n with
  | zero => intro s₁ s₂ y; rfl
  | succ n ih =>
    intro s₁ s₂ y
    simp only [geomList, List.zipWith_cons_cons, ih]
    congr 2
    ring

theorem foldScaleUpper_geomList (t s y : F) (split : Nat) :
    foldScaleUpper t split (geomList s y (split + split))
      = geomList (s * (1 + t * y ^ split)) y split := by
  unfold foldScaleUpper
  rw [geomList_take, geomList_drop, geomList_zipWith_lin]
  congr 1
  ring

theorem msm_geomList (y : F) : ∀ (n : Nat) (s : F) (l : List F),
    l.length = n → msm (geomList s y n) l = s * evalList y l := by
  intro n
  induction n with
  | zero =>
    intro s l hl
    rw [List.length_eq_zero.mp hl]
    simp [msm]
  | succ n ih =>
    intro s l hl
    cases l with
    | nil => simp at hl
    | cons a rest =>
      simp only [List.length_cons] at hl
      simp only [geomList, msm, dotList_cons, evalList_cons]
      have := ih (s * y) rest (by omega)
      simp only [msm] at this
      rw [this]
      ring

theorem sgspLoop_eq_geomList (y : F) : ∀ (n : Nat) (g pow : F),
    sgspLoop n g y pow = geomList (g * pow) y n := by
  intro n
  induction n with
  | zero => intro g pow; rfl
  | succ n ih =>
    intro g pow
    simp only [sgspLoop, geomList, ih]
    congr 2
    ring

theorem structured_generators_eq_geomList (num : Nat) (g s : F) :
    structured_generators_scalar_power num g s = geomList g s num := by
  unfold structured_generators_scalar_power
  rw [sgspLoop_eq_geomList, mul_one]

theorem stepBy2_sgspLoop (y : F) : ∀ (m : Nat) (g pow : F),
    stepBy2 (sgspLoop (2 * m + 1) g y pow) = sgspLoop (m + 1) g (y * y) pow := by
  intro m
  induction m with
  | zero => intro g pow; rfl
  | succ m ih =>
    intro g pow
    have h : 2 * (m + 1) + 1 = (2 * m + 1) + 1 + 1 := by omega
    rw [h, sgspLoop, sgspLoop, stepBy2, ih g (pow * y * y)]
    conv_rhs => rw [sgspLoop]
    have harg : pow * y * y = pow * (y * y) := by ring
    rw [harg]

/-- The even-indexed subsequence of the length-`2n-1` power list
`[g, s·g, s²·g, …]` is the length-`n` power list for `s²`. -/
theorem stepBy2_structured_generators (n : Nat) (hn : 1 ≤ n) (g s : F) :
    stepBy2 (structured_generators_scalar_power (2 * n - 1) g s)
      = geomList g (s * s) n := by
  obtain ⟨m, rfl⟩ : ∃ m, n = m + 1 := ⟨n - 1, by omega⟩
  unfold structured_generators_scalar_power
  rw [show 2 * (m + 1) - 1 = 2 * m + 1 by omega, stepBy2_sgspLoop,
    sgspLoop_eq_geomList, mul_one]

end GeomLemmas

section CountOnesLemmas

theorem countOnes_zero : countOnes 0 = 0 := by
  rw [countOnes]
  norm_num

theorem countOnes_two_pow : ∀ k : Nat, countOnes (2 ^ k) = 1 := by
  intro k
  induction k with
  | zero =>
    rw [pow_zero, countOnes]
    norm_num
    exact countOnes_zero
  | succ k ih =>
    have h1 : 2 ^ (k + 1) ≠ 0 := by positivity
    have h2 : 2 ^ (k + 1) % 2 = 0 := by
      rw [pow_succ]
      exact Nat.mul_mod_left (2 ^ k) 2
    have h3 : 2 ^ (k + 1) / 2 = 2 ^ k := by
      rw [pow_succ]
      exact Nat.mul_div_cancel _ (by norm_num)
    rw [countOnes, if_neg h1, h2, h3, ih]

theorem countOnes_eq_zero_imp : ∀ n : Nat, countOnes n = 0 → n = 0 := by
  intro n
  induction n using Nat.strong_induction_on with
  | _ n ih =>
    intro h
    by_contra hne
    rw [countOnes, if_neg hne] at h
    have h2 : countOnes (n / 2) = 0 := by omega
    have hmod : n % 2 = 0 := by omega
    have hdiv : n / 2 = 0 :=
      ih (n / 2) (Nat.div_lt_self (Nat.pos_of_ne_zero hne) (by omega)) h2
    omega

theorem countOnes_eq_one_imp : ∀ n : Nat, countOnes n = 1 → ∃ k, n = 2 ^ k := by
  intro n
  induction n using Nat.strong_induction_on with
  | _ n ih =>
    intro h
    have hne : n ≠ 0 := by
      intro h0; rw [h0, countOnes_zero] at h; omega
    rw [countOnes, if_neg hne] at h
    rcases Nat.even_or_odd n with he | ho
    · have hmod : n % 2 = 0 := Nat.even_iff.mp he
      have h2 : countOnes (n / 2) = 1 := by omega
      obtain ⟨k, hk⟩ :=
        ih (n / 2) (Nat.div_lt_self (Nat.pos_of_ne_zero hne) (by omega)) h2
      exact ⟨k + 1, by omega⟩
    · have hmod : n % 2 = 1 := Nat.odd_iff.mp ho
      have h2 : countOnes (n / 2) = 0 := by omega
      have hdiv : n / 2 = 0 := countOnes_eq_zero_imp _ h2
      exact ⟨0, by omega⟩

theorem countOnes_eq_one_iff (n : Nat) : countOnes n = 1 ↔ ∃ k, n = 2 ^ k := by
  constructor
  · exact countOnes_eq_one_imp n
  · rintro ⟨k, rfl⟩
    exact countOnes_two_pow k

end CountOnesLemmas

section GipaFoldLemmas

variable {F : Type} [Field F]

theorem foldScaleUpper_length (s : F) (split : Nat) (v : List F) :
    (foldScaleUpper s split v).length = min (v.length - split) split := by
  simp only [foldScaleUpper, List.length_zipWith, List.length_drop,
    List.length_take]
  omega

/-- Bilinear expansion of a dot product of two linear folds. -/
theorem dotList_zipWith_lin (s t : F) : ∀ (u₁ u₂ v₁ v₂ : List F),
    u₁.length = v₁.length → u₂.length = v₂.length → u₁.length = u₂.length →
    dotList (List.zipWith (fun x y => s * x + y) u₁ u₂)
        (List.zipWith (fun x y => t * x + y) v₁ v₂)
      = s * t * dotList u₁ v₁ + s * dotList u₁ v₂ + t * dotList u₂ v₁
          + dotList u₂ v₂ := by
  intro u₁
  induction u₁ with
  | nil =>
    intro u₂ v₁ v₂ h1 h2 h3
    have hv₁ : v₁ = [] := List.length_eq_zero.mp (by simpa using h1.symm)
    have hu₂ : u₂ = [] := List.length_eq_zero.mp (by simpa using h3.symm)
    subst hv₁ hu₂
    have hv₂ : v₂ = [] := List.length_eq_zero.mp (by simpa using h2.symm)
    subst hv₂
    simp [dotList]
  | cons x xs ih =>
    intro u₂ v₁ v₂ h1 h2 h3
    cases u₂ with
    | nil => simp at h3
    | cons y ys =>
      cases v₁ with
      | nil => simp at h1
      | cons p ps =>
        cases v₂ with
        | nil => simp at h2
        | cons q qs =>
          simp only [List.zipWith_cons_cons, dotList_cons]
          rw [ih ys ps qs (by simpa using h1) (by simpa using h2)
            (by simpa using h3)]
          ring

/-- The folded commitments: a dot product of reciprocal folds of `u` and `v`
expands into the original dot product plus the two cross terms.  This is the
algebraic heart of the GIPA halving (spec §4.3 step 4). -/
theorem dotList_foldScaleUpper (s t : F) (hst : s * t = 1) (split : Nat)
    (u v : List F) (hu : u.length = split + split)
    (hv : v.length = split + split) :
    dotList (foldScaleUpper s split u) (foldScaleUpper t split v)
      = dotList u v + s * dotList (u.drop split) (v.take split)
        + t * dotList (u.take split) (v.drop split) := by
  unfold foldScaleUpper
  rw [dotList_zipWith_lin s t (u.drop split) (u.take split) (v.drop split)
    (v.take split)
    (by simp [hu, hv]) (by simp [hu, hv]) (by simp [hu]),
    dotList_take_add_drop split u v, hst]
  ring

theorem gipaRecProve_base (oracle : F → (F × F × F) → (F × F × F) → F)
    (m_a m_b ck_a ck_b : List F) (prev : F) (h : m_a.length = 1) :
    gipaRecProve oracle m_a m_b ck_a ck_b prev
      = some ([], (m_a.headD 0, m_b.headD 0), [], (ck_a.headD 0, ck_b.headD 0)) := by
  rw [gipaRecProve, if_pos h]

theorem gipaRecProve_junk (oracle : F → (F × F × F) → (F × F × F) → F)
    (m_a m_b ck_a ck_b : List F) (prev : F) (h1 : m_a.length ≠ 1)
    (h2 : ¬ (2 ≤ m_a.length ∧ countOnes m_a.length = 1)) :
    gipaRecProve oracle m_a m_b ck_a ck_b prev = none := by
  rw [gipaRecProve, if_neg h1, dif_neg h2]

theorem gipaRecProve_step (oracle : F → (F × F × F) → (F × F × F) → F)
    (m_a m_b ck_a ck_b : List F) (prev : F) (h1 : m_a.length ≠ 1)
    (h23 : 2 ≤ m_a.length ∧ countOnes m_a.length = 1) :
    gipaRecProve oracle m_a m_b ck_a ck_b prev =
      match gipaRecProve oracle
          (foldScaleUpper
            (gipaChal oracle m_a m_b ck_a ck_b (m_a.length / 2) prev)
            (m_a.length / 2) m_a)
          (foldScaleUpper
            (gipaChal oracle m_a m_b ck_a ck_b (m_a.length / 2) prev)⁻¹
            (m_a.length / 2) m_b)
          (foldScaleUpper
            (gipaChal oracle m_a m_b ck_a ck_b (m_a.length / 2) prev)⁻¹
            (m_a.length / 2) ck_a)
          (foldScaleUpper
            (gipaChal oracle m_a m_b ck_a ck_b (m_a.length / 2) prev)
            (m_a.length / 2) ck_b)
          (gipaChal oracle m_a m_b ck_a ck_b (m_a.length / 2) prev) with
      | none => none
      | some (steps, base, ts, ckBase) =>
        some (steps ++ [(gipaCom1 m_a m_b ck_a ck_b (m_a.length / 2),
          gipaCom2 m_a m_b ck_a ck_b (m_a.length / 2))], base,
          ts ++ [gipaChal oracle m_a m_b ck_a ck_b (m_a.length / 2) prev],
          ckBase) := by
  rw [gipaRecProve, if_neg h1, dif_pos h23]

end GipaFoldLemmas

section GipaInvariant

variable {F : Type} [Field F]

/-- Replay invariant: on power-of-two inputs the GIPA recursion succeeds, its
transcript consists of `k` challenges — all nonzero by the rejection-loop
hypothesis on the oracle — and the verifier's fold of the recorded rounds,
starting from the honest input commitments, terminates in exactly the
commitments of the base values under the final folded keys, recomputing the
same transcript. -/
theorem gipaRecProve_spec (oracle : F → (F × F × F) → (F × F × F) → F)
    (hOr : ∀ p l r, oracle p l r ≠ 0) :
    ∀ (k : Nat) (m_a m_b ck_a ck_b : List F) (prev : F),
      m_a.length = 2 ^ k → m_b.length = 2 ^ k →
      ck_a.length = 2 ^ k → ck_b.length = 2 ^ k →
      ∃ steps base ts ckB,
        gipaRecProve oracle m_a m_b ck_a ck_b prev
          = some (steps, base, ts, ckB) ∧
        ts.length = k ∧
        (∀ x ∈ ts, x ≠ 0) ∧
        gipaVerifyFold oracle
          (pedersenCommit ck_a m_a, pedersenCommit ck_b m_b, sip m_a m_b) prev
          steps.reverse
          = ((pedersenCommit [ckB.1] [base.1], pedersenCommit [ckB.2] [base.2],
              base.1 * base.2), ts.reverse) := by
  intro k
  induction k with
  | zero =>
    intro m_a m_b ck_a ck_b prev ha hb hca hcb
    simp only [pow_zero] at ha hb hca hcb
    obtain ⟨a, rfl⟩ := List.length_eq_one.mp ha
    obtain ⟨b, rfl⟩ := List.length_eq_one.mp hb
    obtain ⟨ka, rfl⟩ := List.length_eq_one.mp hca
    obtain ⟨kb, rfl⟩ := List.length_eq_one.mp hcb
    refine ⟨[], (a, b), [], (ka, kb), ?_, rfl, by simp, ?_⟩
    · rw [gipaRecProve_base oracle _ _ _ _ _ (by simp)]
      rfl
    · simp [gipaVerifyFold, sip, dotList]
  | succ k ih =>
    intro m_a m_b ck_a ck_b prev ha hb hca hcb
    have h2k : 1 ≤ 2 ^ k := Nat.one_le_two_pow
    have hpow : (2 : Nat) ^ (k + 1) = 2 ^ k + 2 ^ k := by
      rw [pow_succ]; omega
    have hlen1 : m_a.length ≠ 1 := by rw [ha, hpow]; omega
    have hc2 : 2 ≤ m_a.length := by rw [ha, hpow]; omega
    have hcount : countOnes m_a.length = 1 := by
      rw [ha]; exact countOnes_two_pow (k + 1)
    have hsplit : m_a.length / 2 = 2 ^ k := by rw [ha, hpow]; omega
    rw [gipaRecProve_step oracle m_a m_b ck_a ck_b prev hlen1 ⟨hc2, hcount⟩]
    rw [hsplit]
    -- the round challenge
    have hcne : gipaChal oracle m_a m_b ck_a ck_b (2 ^ k) prev ≠ 0 := hOr _ _ _
    obtain ⟨ds, db, dts, dck, hrec, hdlen, hdnz, hdfold⟩ :=
      ih (foldScaleUpper (gipaChal oracle m_a m_b ck_a ck_b (2 ^ k) prev)
            (2 ^ k) m_a)
         (foldScaleUpper (gipaChal oracle m_a m_b ck_a ck_b (2 ^ k) prev)⁻¹
            (2 ^ k) m_b)
         (foldScaleUpper (gipaChal oracle m_a m_b ck_a ck_b (2 ^ k) prev)⁻¹
            (2 ^ k) ck_a)
         (foldScaleUpper (gipaChal oracle m_a m_b ck_a ck_b (2 ^ k) prev)
            (2 ^ k) ck_b)
         (gipaChal oracle m_a m_b ck_a ck_b (2 ^ k) prev)
         (by rw [foldScaleUpper_length, ha, hpow]; omega)
         (by rw [foldScaleUpper_length, hb, hpow]; omega)
         (by rw [foldScaleUpper_length, hca, hpow]; omega)
         (by rw [foldScaleUpper_length, hcb, hpow]; omega)
    rw [hrec]
    refine ⟨ds ++ [(gipaCom1 m_a m_b ck_a ck_b (2 ^ k),
        gipaCom2 m_a m_b ck_a ck_b (2 ^ k))], db,
      dts ++ [gipaChal oracle m_a m_b ck_a ck_b (2 ^ k) prev], dck,
      rfl, by simp [hdlen], ?_, ?_⟩
    · intro x hx
      rcases List.mem_append.mp hx with hx | hx
      · exact hdnz x hx
      · rw [List.mem_singleton.mp hx]
        exact hcne
    · -- the verifier fold over the recorded rounds
      rw [List.reverse_append, List.reverse_singleton, List.singleton_append]
      have hca2 : ck_a.length = 2 ^ k + 2 ^ k := by rw [hca, hpow]
      have hcb2 : ck_b.length = 2 ^ k + 2 ^ k := by rw [hcb, hpow]
      have ha2 : m_a.length = 2 ^ k + 2 ^ k := by rw [ha, hpow]
      have hb2 : m_b.length = 2 ^ k + 2 ^ k := by rw [hb, hpow]
      have hinv : gipaChal oracle m_a m_b ck_a ck_b (2 ^ k) prev
          * (gipaChal oracle m_a m_b ck_a ck_b (2 ^ k) prev)⁻¹ = 1 :=
        mul_inv_cancel₀ hcne
      have hinv' : (gipaChal oracle m_a m_b ck_a ck_b (2 ^ k) prev)⁻¹
          * gipaChal oracle m_a m_b ck_a ck_b (2 ^ k) prev = 1 :=
        inv_mul_cancel₀ hcne
      -- unfold one verifier round; the folded commitment triple coincides
      -- with the honest commitments of the folded vectors
      rw [show gipaVerifyFold oracle
            (pedersenCommit ck_a m_a, pedersenCommit ck_b m_b, sip m_a m_b)
            prev
            ((gipaCom1 m_a m_b ck_a ck_b (2 ^ k),
              gipaCom2 m_a m_b ck_a ck_b (2 ^ k)) :: ds.reverse)
          = ((gipaVerifyFold oracle
                (gipaChal oracle m_a m_b ck_a ck_b (2 ^ k) prev
                    * (gipaCom1 m_a m_b ck_a ck_b (2 ^ k)).1
                    + pedersenCommit ck_a m_a
                    + (gipaChal oracle m_a m_b ck_a ck_b (2 ^ k) prev)⁻¹
                    * (gipaCom2 m_a m_b ck_a ck_b (2 ^ k)).1,
                  gipaChal oracle m_a m_b ck_a ck_b (2 ^ k) prev
                    * (gipaCom1 m_a m_b ck_a ck_b (2 ^ k)).2.1
                    + pedersenCommit ck_b m_b
                    + (gipaChal oracle m_a m_b ck_a ck_b (2 ^ k) prev)⁻¹
                    * (gipaCom2 m_a m_b ck_a ck_b (2 ^ k)).2.1,
                  gipaChal oracle m_a m_b ck_a ck_b (2 ^ k) prev
                    * (gipaCom1 m_a m_b ck_a ck_b (2 ^ k)).2.2
                    + sip m_a m_b
                    + (gipaChal oracle m_a m_b ck_a ck_b (2 ^ k) prev)⁻¹
                    * (gipaCom2 m_a m_b ck_a ck_b (2 ^ k)).2.2)
                (gipaChal oracle m_a m_b ck_a ck_b (2 ^ k) prev)
                ds.reverse).1,
             gipaChal oracle m_a m_b ck_a ck_b (2 ^ k) prev
               :: (gipaVerifyFold oracle
                (gipaChal oracle m_a m_b ck_a ck_b (2 ^ k) prev
                    * (gipaCom1 m_a m_b ck_a ck_b (2 ^ k)).1
                    + pedersenCommit ck_a m_a
                    + (gipaChal oracle m_a m_b ck_a ck_b (2 ^ k) prev)⁻¹
                    * (gipaCom2 m_a m_b ck_a ck_b (2 ^ k)).1,
                  gipaChal oracle m_a m_b ck_a ck_b (2 ^ k) prev
                    * (gipaCom1 m_a m_b ck_a ck_b (2 ^ k)).2.1
                    + pedersenCommit ck_b m_b
                    + (gipaChal oracle m_a m_b ck_a ck_b (2 ^ k) prev)⁻¹
                    * (gipaCom2 m_a m_b ck_a ck_b (2 ^ k)).2.1,
                  gipaChal oracle m_a m_b ck_a ck_b (2 ^ k) prev
                    * (gipaCom1 m_a m_b ck_a ck_b (2 ^ k)).2.2
                    + sip m_a m_b
                    + (gipaChal oracle m_a m_b ck_a ck_b (2 ^ k) prev)⁻¹
                    * (gipaCom2 m_a m_b ck_a ck_b (2 ^ k)).2.2)
                (gipaChal oracle m_a m_b ck_a ck_b (2 ^ k) prev)
                ds.reverse).2) from rfl]
      have hfoldA :
          gipaChal oracle m_a m_b ck_a ck_b (2 ^ k) prev
              * (gipaCom1 m_a m_b ck_a ck_b (2 ^ k)).1
              + pedersenCommit ck_a m_a
              + (gipaChal oracle m_a m_b ck_a ck_b (2 ^ k) prev)⁻¹
              * (gipaCom2 m_a m_b ck_a ck_b (2 ^ k)).1
            = pedersenCommit
                (foldScaleUpper
                  (gipaChal oracle m_a m_b ck_a ck_b (2 ^ k) prev)⁻¹
                  (2 ^ k) ck_a)
                (foldScaleUpper
                  (gipaChal oracle m_a m_b ck_a ck_b (2 ^ k) prev)
                  (2 ^ k) m_a) := by
        simp only [gipaCom1, gipaCom2, pedersenCommit, msm]
        rw [dotList_foldScaleUpper _ _ hinv _ _ _ ha2 hca2]
        ring
      have hfoldB :
          gipaChal oracle m_a m_b ck_a ck_b (2 ^ k) prev
              * (gipaCom1 m_a m_b ck_a ck_b (2 ^ k)).2.1
              + pedersenCommit ck_b m_b
              + (gipaChal oracle m_a m_b ck_a ck_b (2 ^ k) prev)⁻¹
              * (gipaCom2 m_a m_b ck_a ck_b (2 ^ k)).2.1
            = pedersenCommit
                (foldScaleUpper
                  (gipaChal oracle m_a m_b ck_a ck_b (2 ^ k) prev)
                  (2 ^ k) ck_b)
                (foldScaleUpper
                  (gipaChal oracle m_a m_b ck_a ck_b (2 ^ k) prev)⁻¹
                  (2 ^ k) m_b) := by
        simp only [gipaCom1, gipaCom2, pedersenCommit, msm]
        rw [dotList_foldScaleUpper _ _ hinv' _ _ _ hb2 hcb2]
        ring
      have hfoldT :
          gipaChal oracle m_a m_b ck_a ck_b (2 ^ k) prev
              * (gipaCom1 m_a m_b ck_a ck_b (2 ^ k)).2.2
              + sip m_a m_b
              + (gipaChal oracle m_a m_b ck_a ck_b (2 ^ k) prev)⁻¹
              * (gipaCom2 m_a m_b ck_a ck_b (2 ^ k)).2.2
            = sip (foldScaleUpper
                  (gipaChal oracle m_a m_b ck_a ck_b (2 ^ k) prev)
                  (2 ^ k) m_a)
                (foldScaleUpper
                  (gipaChal oracle m_a m_b ck_a ck_b (2 ^ k) prev)⁻¹
                  (2 ^ k) m_b) := by
        simp only [gipaCom1, gipaCom2, sip]
        rw [dotList_foldScaleUpper _ _ hinv _ _ _ ha2 hb2]
        ring
      rw [hfoldA, hfoldB, hfoldT, hdfold]
      simp [List.reverse_append]

/-- Structure of the final folded keys: when the recursion starts from
geometric key vectors (scale `s`, ratio `y`), the final keys are the products
`s·Π_i (1 + c_i⁻¹·y^(2^i))` (left) and `s·Π_i (1 + c_i·y^(2^i))` (right) over
the returned transcript, whose `i`-th entry is the challenge of the
`(k-i)`-th halving round. -/
theorem gipaRecProve_final_ck (oracle : F → (F × F × F) → (F × F × F) → F) :
    ∀ (k : Nat) (m_a m_b : List F) (sA sB yA yB prev : F)
      (steps : List (GipaStep F)) (base : F × F) (ts : List F) (ckB : F × F),
      m_a.length = 2 ^ k → m_b.length = 2 ^ k →
      gipaRecProve oracle m_a m_b (geomList sA yA (2 ^ k))
          (geomList sB yB (2 ^ k)) prev = some (steps, base, ts, ckB) →
      ts.length = k ∧
      ckB.1 = sA * (productFormList (ts.map (·⁻¹)) yA).prod ∧
      ckB.2 = sB * (productFormList ts yB).prod := by
  intro k
  induction k with
  | zero =>
    intro m_a m_b sA sB yA yB prev steps base ts ckB ha hb hrec
    simp only [pow_zero] at ha hb hrec
    rw [gipaRecProve_base oracle _ _ _ _ _ ha] at hrec
    simp only [geomList, List.headD_cons, Option.some.injEq, Prod.mk.injEq]
      at hrec
    obtain ⟨_, _, hts, hck⟩ := hrec
    subst hts
    refine ⟨rfl, ?_, ?_⟩ <;> rw [← hck] <;> simp [productFormList]
  | succ k ih =>
    intro m_a m_b sA sB yA yB prev steps base ts ckB ha hb hrec
    have h2k : 1 ≤ 2 ^ k := Nat.one_le_two_pow
    have hpow : (2 : Nat) ^ (k + 1) = 2 ^ k + 2 ^ k := by
      rw [pow_succ]; omega
    have hlen1 : m_a.length ≠ 1 := by rw [ha, hpow]; omega
    have hc2 : 2 ≤ m_a.length := by rw [ha, hpow]; omega
    have hcount : countOnes m_a.length = 1 := by
      rw [ha]; exact countOnes_two_pow (k + 1)
    have hsplit : m_a.length / 2 = 2 ^ k := by rw [ha, hpow]; omega
    rw [gipaRecProve_step oracle _ _ _ _ prev hlen1 ⟨hc2, hcount⟩, hsplit]
      at hrec
    set c := gipaChal oracle m_a m_b (geomList sA yA (2 ^ (k + 1)))
      (geomList sB yB (2 ^ (k + 1))) (2 ^ k) prev with hcdef
    have hgA : foldScaleUpper c⁻¹ (2 ^ k) (geomList sA yA (2 ^ (k + 1)))
        = geomList (sA * (1 + c⁻¹ * yA ^ 2 ^ k)) yA (2 ^ k) := by
      rw [hpow]; exact foldScaleUpper_geomList _ _ _ _
    have hgB : foldScaleUpper c (2 ^ k) (geomList sB yB (2 ^ (k + 1)))
        = geomList (sB * (1 + c * yB ^ 2 ^ k)) yB (2 ^ k) := by
      rw [hpow]; exact foldScaleUpper_geomList _ _ _ _
    rw [hgA, hgB] at hrec
    cases hrec2 : gipaRecProve oracle (foldScaleUpper c (2 ^ k) m_a)
        (foldScaleUpper c⁻¹ (2 ^ k) m_b)
        (geomList (sA * (1 + c⁻¹ * yA ^ 2 ^ k)) yA (2 ^ k))
        (geomList (sB * (1 + c * yB ^ 2 ^ k)) yB (2 ^ k)) c with
    | none =>
      rw [hrec2] at hrec
      simp at hrec
    | some val =>
      rw [hrec2] at hrec
      obtain ⟨ds, db, dts, dck⟩ := val
      simp only [Option.some.injEq, Prod.mk.injEq] at hrec
      obtain ⟨hsteps, hbase, hts, hck⟩ := hrec
      obtain ⟨hdl, hd1, hd2⟩ := ih (foldScaleUpper c (2 ^ k) m_a)
        (foldScaleUpper c⁻¹ (2 ^ k) m_b)
        (sA * (1 + c⁻¹ * yA ^ 2 ^ k)) (sB * (1 + c * yB ^ 2 ^ k)) yA yB c
        ds db dts dck
        (by rw [foldScaleUpper_length, ha, hpow]; omega)
        (by rw [foldScaleUpper_length, hb, hpow]; omega)
        hrec2
      subst hts hck
      refine ⟨by simp [hdl], ?_, ?_⟩
      · rw [hd1, List.map_append]
        simp only [List.map_cons, List.map_nil]
        rw [productFormList_append_singleton, List.prod_append,
          List.prod_singleton, List.length_map, hdl]
        ring
      · rw [hd2, productFormList_append_singleton, List.prod_append,
          List.prod_singleton, hdl]
        ring

end GipaInvariant

section TipaAssemblyLemmas

variable {F : Type} [Field F]

theorem structured_generators_length (num : Nat) (g s : F) :
    (structured_generators_scalar_power num g s).length = num := by
  rw [structured_generators_eq_geomList, geomList_length]

theorem geomList_headD (s y : F) (n : Nat) (hn : 1 ≤ n) :
    (geomList s y n).headD 0 = s := by
  cases n with
  | zero => omega
  | succ n => rfl

theorem contains_zero_eq_false [DecidableEq F] (l : List F)
    (h : ∀ x ∈ l, x ≠ 0) : l.contains 0 = false := by
  induction l with
  | nil => rfl
  | cons a rest ih =>
    have ha : a ≠ 0 := h a (List.mem_cons_self _ _)
    have hr : rest.contains 0 = false :=
      ih fun x hx => h x (List.mem_cons_of_mem _ hx)
    simp only [List.contains_cons, hr, Bool.or_false]
    simpa using fun he => ha he.symm

theorem polynomial_coefficients_length (t : List F) (r : F) :
    (polynomial_coefficients_from_transcript t r).length
      = 2 * 2 ^ t.length - 1 := by
  unfold polynomial_coefficients_from_transcript
  rw [interleaveZero_length, coefficientsLoop_length]
  simp

theorem polynomial_coefficients_strip [DecidableEq F] (t : List F) (r : F)
    (ht : ∀ x ∈ t, x ≠ 0) (hr : r ≠ 0) :
    stripTrailingZeros (polynomial_coefficients_from_transcript t r)
      = polynomial_coefficients_from_transcript t r := by
  obtain ⟨w, hw, hwne⟩ :=
    coefficientsLoop_getLast?_ne_zero t ht [1] r hr 1 rfl one_ne_zero
  apply stripTrailingZeros_eq_self _ w _ hwne
  unfold polynomial_coefficients_from_transcript
  rw [interleaveZero_getLast?]
  exact hw

/-- The product evaluation form equals the Horner evaluation of the expanded,
zero-interleaved coefficient vector (the underlying fact of claim C3, also
used by the completeness assembly). -/
theorem product_form_eq_eval_coefficients (transcript : List F) (z r : F) :
    polynomial_evaluation_product_form_from_transcript transcript z r
      = evalList z (polynomial_coefficients_from_transcript transcript r) := by
  unfold polynomial_evaluation_product_form_from_transcript
    polynomial_coefficients_from_transcript
  rw [evalList_interleaveZero, evalList_coefficientsLoop]
  simp [evalList, pow_one]

/-- The defining property of the KZG quotient built by subtract-then-divide:
multiplied back by `z - c` it reproduces `f(z) - f(c)`. -/
theorem kzg_quotient_eval [DecidableEq F] (f : List F) (c z v : F)
    (hv : v = evalList c f) :
    (z - c) * evalList z (polyDivXSubC (subConst f v) c).1
      = evalList z f - v := by
  have h := polyDivXSubC_eval z c (subConst f v)
  rw [evalList_subConst] at h
  have hrem : (polyDivXSubC (subConst f v) c).2 = 0 := by
    rw [polyDivXSubC_snd, evalList_subConst, hv]
    ring
  rw [hrem, add_zero] at h
  rw [← h]

end TipaAssemblyLemmas

section TipaUnfoldLemmas

variable {F : Type} [Field F]

theorem contains_zero_ne_true [DecidableEq F] (l : List F)
    (hnz : ∀ x ∈ l, x ≠ 0) : ¬ (l.contains 0 = true) := by
  intro h
  have hm : (0 : F) ∈ l := by simpa using h
  exact hnz 0 hm rfl

/-- Unfolding of `prove_with_srs_shift` on a successful GIPA run with at least
one round, no zero challenge, a nonzero shift and a matching SRS length: the
resulting proof carries the reversed round records, the base pair, the final
keys, and the two resized-quotient multiexponentiations. -/
theorem tipaProveWithSrsShift_unfold [DecidableEq F]
    (oracle : F → (F × F × F) → (F × F × F) → F) (kzgOracle : F → F → F → F)
    (srs : TipaSRS F) (m_a m_b ck_a ck_b : List F) (r_shift : F)
    (steps : List (GipaStep F)) (base : F × F) (t0 : F) (ts' : List F)
    (ckB : F × F)
    (haux : gipaRecProve oracle m_a m_b ck_a ck_b 0
      = some (steps, base, t0 :: ts', ckB))
    (hnz : ∀ x ∈ t0 :: ts', x ≠ 0) (hr : r_shift ≠ 0)
    (hflen : (stripTrailingZeros (polynomial_coefficients_from_transcript
        ((t0 :: ts').map (·⁻¹)) r_shift⁻¹)).length
      = srs.g_alpha_powers.length) :
    tipaProveWithSrsShift oracle kzgOracle srs m_a m_b ck_a ck_b r_shift
      = some { gipa_steps := steps.reverse, r_base := base, final_ck := ckB
               final_ck_proof :=
                (msm srs.h_beta_powers (listResize
                  (polyDivXSubC (subConst
                    (stripTrailingZeros
                      (polynomial_coefficients_from_transcript
                        ((t0 :: ts').map (·⁻¹)) r_shift⁻¹))
                    (polynomial_evaluation_product_form_from_transcript
                      ((t0 :: ts').map (·⁻¹))
                      (kzgOracle t0 ckB.1 ckB.2) r_shift⁻¹))
                    (kzgOracle t0 ckB.1 ckB.2)).1
                  srs.g_alpha_powers.length),
                 msm srs.g_alpha_powers (listResize
                  (polyDivXSubC (subConst
                    (stripTrailingZeros
                      (polynomial_coefficients_from_transcript (t0 :: ts') 1))
                    (polynomial_evaluation_product_form_from_transcript
                      (t0 :: ts') (kzgOracle t0 ckB.1 ckB.2) 1))
                    (kzgOracle t0 ckB.1 ckB.2)).1
                  srs.g_alpha_powers.length)) } := by
  rw [tipaProveWithSrsShift, gipaProveWithAux, haux]
  simp only [Option.map_some']
  rw [if_neg (contains_zero_ne_true _ hnz), if_neg hr,
    if_neg (by rw [hflen]; simp)]
  rfl

/-- Unfolding of `verify_with_srs_shift` when the fold of the round records
yields a transcript `(t0 :: ts').reverse` without zero challenges and the
shift is nonzero: the verifier returns the conjunction of its four checks. -/
theorem tipaVerifyWithSrsShift_unfold [DecidableEq F]
    (oracle : F → (F × F × F) → (F × F × F) → F) (kzgOracle : F → F → F → F)
    (v_srs : VerifierSRSModel F) (ck_t : F) (com : F × F × F)
    (P : TipaProof F) (r_shift : F) (bc : F × F × F) (t0 : F) (ts' : List F)
    (hfold : gipaVerifyFold oracle com 0 P.gipa_steps
      = (bc, (t0 :: ts').reverse))
    (hnz : ∀ x ∈ t0 :: ts', x ≠ 0) (hr : r_shift ≠ 0) :
    tipaVerifyWithSrsShift oracle kzgOracle v_srs ck_t com P r_shift
      = some ((decide (v_srs.g * (P.final_ck.1
            - polynomial_evaluation_product_form_from_transcript
                ((t0 :: ts').map (·⁻¹))
                (kzgOracle t0 P.final_ck.1 P.final_ck.2) r_shift⁻¹
              * v_srs.h)
          = (v_srs.g_beta - kzgOracle t0 P.final_ck.1 P.final_ck.2 * v_srs.g)
            * P.final_ck_proof.1))
        && (decide ((P.final_ck.2
            - polynomial_evaluation_product_form_from_transcript (t0 :: ts')
                (kzgOracle t0 P.final_ck.1 P.final_ck.2) 1 * v_srs.g)
              * v_srs.h
          = P.final_ck_proof.2 * (v_srs.h_alpha
            - kzgOracle t0 P.final_ck.1 P.final_ck.2 * v_srs.h)))
        && (decide (pedersenCommit [P.final_ck.1] [P.r_base.1] = bc.1)
            && decide (pedersenCommit [P.final_ck.2] [P.r_base.2] = bc.2.1)
            && identityVerify (P.r_base.1 * P.r_base.2) bc.2.2)) := by
  rw [tipaVerifyWithSrsShift, gipaVerifyRecursiveChallengeTranscript]
  rw [hfold]
  simp only [List.reverse_reverse]
  rw [if_neg (contains_zero_ne_true _ hnz)]
  simp only [List.head?_cons]
  rw [if_neg hr]

end TipaUnfoldLemmas

section TipaCompleteness

variable {F : Type} [Field F]

/-- Completeness of the TIPA pipeline at `n = 2^k`, `k ≥ 1`, on honestly
generated SRS, commitment keys, commitments and proof (shift scalar `1`).
This is the content of claim C1 restricted to the inputs on which the prover
does not panic. -/
theorem tipa_honest_run [DecidableEq F]
    (oracle : F → (F × F × F) → (F × F × F) → F) (kzgOracle : F → F → F → F)
    (hOr : ∀ p l r, oracle p l r ≠ 0)
    (k : Nat) (hk : 1 ≤ k) (alpha beta : F) (a b : List F)
    (ha : a.length = 2 ^ k) (hb : b.length = 2 ^ k) :
    ∃ P : TipaProof F,
      tipaProve oracle kzgOracle (tipaSetup alpha beta (2 ^ k)) a b
          (get_commitment_keys (tipaSetup alpha beta (2 ^ k))).1
          (get_commitment_keys (tipaSetup alpha beta (2 ^ k))).2 = some P ∧
      ∀ ck_t : F,
        tipaVerify oracle kzgOracle
            (get_verifier_key (tipaSetup alpha beta (2 ^ k))) ck_t
            (pedersenCommit
                (get_commitment_keys (tipaSetup alpha beta (2 ^ k))).1 a,
             pedersenCommit
                (get_commitment_keys (tipaSetup alpha beta (2 ^ k))).2 b,
             sip a b) P = some true := by
  have h2k : 1 ≤ 2 ^ k := Nat.one_le_two_pow
  have hN : 1 ≤ 2 * 2 ^ k - 1 := by omega
  have hckA : (get_commitment_keys (tipaSetup alpha beta (2 ^ k))).1
      = geomList 1 (beta * beta) (2 ^ k) :=
    stepBy2_structured_generators _ h2k _ _
  have hckB : (get_commitment_keys (tipaSetup alpha beta (2 ^ k))).2
      = geomList 1 (alpha * alpha) (2 ^ k) :=
    stepBy2_structured_generators _ h2k _ _
  have hgalpha : (tipaSetup alpha beta (2 ^ k) : TipaSRS F).g_alpha_powers
      = geomList 1 alpha (2 * 2 ^ k - 1) :=
    structured_generators_eq_geomList _ _ _
  have hhbeta : (tipaSetup alpha beta (2 ^ k) : TipaSRS F).h_beta_powers
      = geomList 1 beta (2 * 2 ^ k - 1) :=
    structured_generators_eq_geomList _ _ _
  have hsrslen : (tipaSetup alpha beta (2 ^ k) : TipaSRS F).g_alpha_powers.length
      = 2 * 2 ^ k - 1 := by
    rw [hgalpha, geomList_length]
  rw [hckA, hckB]
  obtain ⟨steps, base, ts, ckB, hrec, hlen, hnz, hfold⟩ :=
    gipaRecProve_spec oracle hOr k a b (geomList 1 (beta * beta) (2 ^ k))
      (geomList 1 (alpha * alpha) (2 ^ k)) 0 ha hb
      (geomList_length _ _ _) (geomList_length _ _ _)
  obtain ⟨hlen', hck1, hck2⟩ :=
    gipaRecProve_final_ck oracle k a b 1 1 (beta * beta) (alpha * alpha) 0
      steps base ts ckB ha hb hrec
  cases ts with
  | nil => rw [List.length_nil] at hlen; omega
  | cons t0 ts' =>
  have htinv_ne : ∀ x ∈ (t0 :: ts').map (·⁻¹), x ≠ 0 := by
    intro x hx
    obtain ⟨y, hy, rfl⟩ := List.mem_map.mp hx
    exact inv_ne_zero (hnz y hy)
  have htinvlen : ((t0 :: ts').map (·⁻¹)).length = k := by
    rw [List.length_map]; exact hlen
  have hstrip : stripTrailingZeros (polynomial_coefficients_from_transcript
        ((t0 :: ts').map (·⁻¹)) 1)
      = polynomial_coefficients_from_transcript ((t0 :: ts').map (·⁻¹)) 1 :=
    polynomial_coefficients_strip _ _ htinv_ne one_ne_zero
  have hflen : (stripTrailingZeros (polynomial_coefficients_from_transcript
        ((t0 :: ts').map (·⁻¹)) (1 : F)⁻¹)).length
      = (tipaSetup alpha beta (2 ^ k) : TipaSRS F).g_alpha_powers.length := by
    rw [inv_one, hstrip, polynomial_coefficients_length, htinvlen, hsrslen]
  have hprove := tipaProveWithSrsShift_unfold oracle kzgOracle
    (tipaSetup alpha beta (2 ^ k)) a b (geomList 1 (beta * beta) (2 ^ k))
    (geomList 1 (alpha * alpha) (2 ^ k)) 1 steps base t0 ts' ckB hrec hnz
    one_ne_zero hflen
  simp only [inv_one] at hprove
  refine ⟨⟨steps.reverse, base, ckB,
    (msm (tipaSetup alpha beta (2 ^ k) : TipaSRS F).h_beta_powers
      (listResize
        (polyDivXSubC
          (subConst
            (stripTrailingZeros
              (polynomial_coefficients_from_transcript
                ((t0 :: ts').map (·⁻¹)) 1))
            (polynomial_evaluation_product_form_from_transcript
              ((t0 :: ts').map (·⁻¹)) (kzgOracle t0 ckB.1 ckB.2) 1))
          (kzgOracle t0 ckB.1 ckB.2)).1
        (tipaSetup alpha beta (2 ^ k) : TipaSRS F).g_alpha_powers.length),
     msm (tipaSetup alpha beta (2 ^ k) : TipaSRS F).g_alpha_powers
      (listResize
        (polyDivXSubC
          (subConst
            (stripTrailingZeros
              (polynomial_coefficients_from_transcript (t0 :: ts') 1))
            (polynomial_evaluation_product_form_from_transcript (t0 :: ts')
              (kzgOracle t0 ckB.1 ckB.2) 1))
          (kzgOracle t0 ckB.1 ckB.2)).1
        (tipaSetup alpha beta (2 ^ k) : TipaSRS F).g_alpha_powers.length))⟩,
    ?_, ?_⟩
  · rw [tipaProve]
    exact hprove
  · intro ck_t
    rw [tipaVerify]
    rw [tipaVerifyWithSrsShift_unfold oracle kzgOracle _ ck_t _ _ 1
      (pedersenCommit [ckB.1] [base.1], pedersenCommit [ckB.2] [base.2],
        base.1 * base.2) t0 ts' hfold hnz one_ne_zero]
    simp only [inv_one]
    -- verifier SRS components
    have hvg : (get_verifier_key (tipaSetup alpha beta (2 ^ k)) :
        VerifierSRSModel F).g = 1 := by
      show (tipaSetup alpha beta (2 ^ k) : TipaSRS F).g_alpha_powers.headD 0 = 1
      rw [hgalpha, geomList_headD _ _ _ hN]
    have hvh : (get_verifier_key (tipaSetup alpha beta (2 ^ k)) :
        VerifierSRSModel F).h = 1 := by
      show (tipaSetup alpha beta (2 ^ k) : TipaSRS F).h_beta_powers.headD 0 = 1
      rw [hhbeta, geomList_headD _ _ _ hN]
    have hvgb : (get_verifier_key (tipaSetup alpha beta (2 ^ k)) :
        VerifierSRSModel F).g_beta = beta := rfl
    have hvha : (get_verifier_key (tipaSetup alpha beta (2 ^ k)) :
        VerifierSRSModel F).h_alpha = alpha := rfl
    -- abbreviations for the two transcript polynomials and the KZG point
    set c := kzgOracle t0 ckB.1 ckB.2 with hc
    set fA := polynomial_coefficients_from_transcript
      ((t0 :: ts').map (·⁻¹)) 1 with hfA
    set fB := polynomial_coefficients_from_transcript (t0 :: ts') 1 with hfB
    -- final keys as evaluations of the transcript polynomials
    have hevalA : ∀ z : F,
        polynomial_evaluation_product_form_from_transcript
          ((t0 :: ts').map (·⁻¹)) z 1 = evalList z fA := by
      intro z
      rw [product_form_eq_eval_coefficients]
    have hevalB : ∀ z : F,
        polynomial_evaluation_product_form_from_transcript (t0 :: ts') z 1
          = evalList z fB := by
      intro z
      rw [product_form_eq_eval_coefficients]
    have hckA1 : ckB.1 = evalList beta fA := by
      rw [hck1, one_mul, ← hevalA beta]
      unfold polynomial_evaluation_product_form_from_transcript
      rw [mul_one]
    have hckB2 : ckB.2 = evalList alpha fB := by
      rw [hck2, one_mul, ← hevalB alpha]
      unfold polynomial_evaluation_product_form_from_transcript
      rw [mul_one]
    -- lengths for the quotient resize
    have hfAlen : fA.length = 2 * 2 ^ k - 1 := by
      rw [hfA, polynomial_coefficients_length, htinvlen]
    have hfBlen : fB.length ≤ 2 * 2 ^ k - 1 := by
      rw [hfB, polynomial_coefficients_length, hlen]
    -- the two KZG checks hold
    have hqalen : (polyDivXSubC (subConst (stripTrailingZeros fA)
        (evalList c fA)) c).1.length ≤ 2 * 2 ^ k - 1 := by
      rw [polyDivXSubC_fst_length]
      have h1 := subConst_length_le (evalList c fA) (stripTrailingZeros fA)
      have h2 := stripTrailingZeros_length_le fA
      rw [hfAlen] at h2
      have : Nat.max 1 (stripTrailingZeros fA).length ≤ 2 * 2 ^ k - 1 := by
        rw [Nat.max_le]; omega
      omega
    have hqblen : (polyDivXSubC (subConst (stripTrailingZeros fB)
        (evalList c fB)) c).1.length ≤ 2 * 2 ^ k - 1 := by
      rw [polyDivXSubC_fst_length]
      have h1 := subConst_length_le (evalList c fB) (stripTrailingZeros fB)
      have h2 := stripTrailingZeros_length_le fB
      have : Nat.max 1 (stripTrailingZeros fB).length ≤ 2 * 2 ^ k - 1 := by
        rw [Nat.max_le]; omega
      omega
    have hvalidA : (1 : F) * (ckB.1 - evalList c fA * 1)
        = (beta - c * 1) * msm (tipaSetup alpha beta (2 ^ k) :
            TipaSRS F).h_beta_powers
          (listResize (polyDivXSubC (subConst (stripTrailingZeros fA)
            (evalList c fA)) c).1
            (tipaSetup alpha beta (2 ^ k) : TipaSRS F).g_alpha_powers.length) := by
      rw [hsrslen, hhbeta, msm_geomList beta _ 1 _ (listResize_length _ _),
        evalList_listResize _ _ _ hqalen]
      have hq := kzg_quotient_eval (stripTrailingZeros fA) c beta
        (evalList c fA) (by rw [evalList_stripTrailingZeros])
      rw [evalList_stripTrailingZeros] at hq
      rw [hckA1]
      linear_combination hq.symm
    have hvalidB : (ckB.2 - evalList c fB * 1) * 1
        = msm (tipaSetup alpha beta (2 ^ k) : TipaSRS F).g_alpha_powers
          (listResize (polyDivXSubC (subConst (stripTrailingZeros fB)
            (evalList c fB)) c).1
            (tipaSetup alpha beta (2 ^ k) : TipaSRS F).g_alpha_powers.length)
          * (alpha - c * 1) := by
      rw [hsrslen, hgalpha, msm_geomList alpha _ 1 _ (listResize_length _ _),
        evalList_listResize _ _ _ hqblen]
      have hq := kzg_quotient_eval (stripTrailingZeros fB) c alpha
        (evalList c fB) (by rw [evalList_stripTrailingZeros])
      rw [evalList_stripTrailingZeros] at hq
      rw [hckB2]
      linear_combination hq.symm
    -- assemble the boolean conjunction
    congr 1
    rw [hvg, hvh, hvgb, hvha]
    simp only [hevalA, hevalB]
    rw [decide_eq_true hvalidA, decide_eq_true hvalidB]
    simp [identityVerify]

end TipaCompleteness

section FoldIndexLemmas

variable {F : Type} [Field F]

theorem foldScaleUpper_get? (s : F) (split i : Nat) (v : List F)
    (h2 : split + i < v.length) (h3 : i < split) :
    (foldScaleUpper s split v).get? i
      = some (s * v.getD (split + i) 0 + v.getD i 0) := by
  have hiv : i < v.length := by omega
  unfold foldScaleUpper
  rw [List.get?_zipWith', List.get?_drop, List.get?_take h3]
  have hx : v.get? (split + i) = some (v.getD (split + i) 0) := by
    rw [List.getD_eq_getElem?_getD, List.get?_eq_getElem?,
      List.getElem?_eq_getElem h2]
    rfl
  have hy : v.get? i = some (v.getD i 0) := by
    rw [List.getD_eq_getElem?_getD, List.get?_eq_getElem?,
      List.getElem?_eq_getElem hiv]
    rfl
  rw [hx, hy]
  rfl

end FoldIndexLemmas

section VerifyTotalLemmas

variable {F : Type} [Field F]

theorem gipaVerifyFold_snd_length
    (oracle : F → (F × F × F) → (F × F × F) → F) :
    ∀ (steps : List (GipaStep F)) (com : F × F × F) (prev : F),
      (gipaVerifyFold oracle com prev steps).2.length = steps.length := by
  intro steps
  induction steps with
  | nil => intro com prev; rfl
  | cons s rest ih =>
    intro com prev
    obtain ⟨l, r⟩ := s
    simp only [gipaVerifyFold, List.length_cons, ih]

theorem gipaVerifyFold_snd_ne_zero
    (oracle : F → (F × F × F) → (F × F × F) → F)
    (hOr : ∀ p l r, oracle p l r ≠ 0) :
    ∀ (steps : List (GipaStep F)) (com : F × F × F) (prev : F),
      ∀ x ∈ (gipaVerifyFold oracle com prev steps).2, x ≠ 0 := by
  intro steps
  induction steps with
  | nil => intro com prev x hx; simp [gipaVerifyFold] at hx
  | cons s rest ih =>
    intro com prev x hx
    obtain ⟨l, r⟩ := s
    simp only [gipaVerifyFold, List.mem_cons] at hx
    rcases hx with hx | hx
    · rw [hx]; exact hOr _ _ _
    · exact ih _ _ x hx

/-- On any proof with at least one round record and a nonzero shift, the
verifier's `Option` computation succeeds (no panic). -/
theorem tipaVerify_total [DecidableEq F]
    (oracle : F → (F × F × F) → (F × F × F) → F) (kzgOracle : F → F → F → F)
    (hOr : ∀ p l r, oracle p l r ≠ 0)
    (v_srs : VerifierSRSModel F) (ck_t : F) (com : F × F × F)
    (P : TipaProof F) (r_shift : F) (hsteps : P.gipa_steps ≠ [])
    (hr : r_shift ≠ 0) :
    ∃ bl : Bool, tipaVerifyWithSrsShift oracle kzgOracle v_srs ck_t com P
      r_shift = some bl := by
  have hlen : (gipaVerifyFold oracle com 0 P.gipa_steps).2.length
      = P.gipa_steps.length := gipaVerifyFold_snd_length oracle _ _ _
  have hnz := gipaVerifyFold_snd_ne_zero oracle hOr P.gipa_steps com 0
  obtain ⟨t0, ts', hrev⟩ : ∃ t0 ts',
      (gipaVerifyFold oracle com 0 P.gipa_steps).2.reverse = t0 :: ts' := by
    cases hr2 : (gipaVerifyFold oracle com 0 P.gipa_steps).2.reverse with
    | nil =>
      exfalso
      apply hsteps
      have : (gipaVerifyFold oracle com 0 P.gipa_steps).2 = [] := by
        have := congrArg List.reverse hr2
        simpa using this
      rw [this] at hlen
      exact List.length_eq_zero.mp hlen.symm
    | cons t0 ts' => exact ⟨t0, ts', rfl⟩
  have hsnd : (gipaVerifyFold oracle com 0 P.gipa_steps).2
      = (t0 :: ts').reverse := by
    rw [← hrev, List.reverse_reverse]
  have hnz' : ∀ x ∈ t0 :: ts', x ≠ 0 := by
    intro x hx
    apply hnz
    rw [hsnd]
    exact List.mem_reverse.mpr hx
  have hfold : gipaVerifyFold oracle com 0 P.gipa_steps
      = ((gipaVerifyFold oracle com 0 P.gipa_steps).1, (t0 :: ts').reverse) := by
    rw [← hsnd]
  exact ⟨_, tipaVerifyWithSrsShift_unfold oracle kzgOracle v_srs ck_t com P
    r_shift _ t0 ts' hfold hnz' hr⟩

/-- On a proof with zero round records, the verifier's recomputed transcript
is empty and `transcript.first().unwrap()` panics. -/
theorem tipaVerify_none_of_no_rounds [DecidableEq F]
    (oracle : F → (F × F × F) → (F × F × F) → F) (kzgOracle : F → F → F → F)
    (v_srs : VerifierSRSModel F) (ck_t : F) (com : F × F × F)
    (P : TipaProof F) (r_shift : F) (hsteps : P.gipa_steps = []) :
    tipaVerifyWithSrsShift oracle kzgOracle v_srs ck_t com P r_shift
      = none := by
  rw [tipaVerifyWithSrsShift, gipaVerifyRecursiveChallengeTranscript, hsteps]
  rfl

/-- On length-1 left messages the recursion produces an empty transcript and
`prove_with_srs_shift` panics (either at the length assertion or at
`transcript.first().unwrap()`). -/
theorem tipaProve_none_of_length_one [DecidableEq F]
    (oracle : F → (F × F × F) → (F × F × F) → F) (kzgOracle : F → F → F → F)
    (srs : TipaSRS F) (m_a m_b ck_a ck_b : List F) (r_shift : F)
    (ha : m_a.length = 1) :
    tipaProveWithSrsShift oracle kzgOracle srs m_a m_b ck_a ck_b r_shift
      = none := by
  rw [tipaProveWithSrsShift, gipaProveWithAux,
    gipaRecProve_base oracle _ _ _ _ _ ha]
  simp only [Option.map_some']
  rw [if_neg (by simp)]
  by_cases hr : r_shift = 0
  · rw [if_pos hr]
  · rw [if_neg hr]
    by_cases hg : (stripTrailingZeros (polynomial_coefficients_from_transcript
        (([] : List F).map (·⁻¹)) r_shift⁻¹)).length ≠ srs.g_alpha_powers.length
    · rw [if_pos hg]
    · rw [if_neg hg]
      rfl

/-- General success of `prove_with_srs_shift` on protocol-valid inputs of
length `2^k`, `k ≥ 1`, with an SRS of the matching size. -/
theorem tipaProve_total [DecidableEq F]
    (oracle : F → (F × F × F) → (F × F × F) → F) (kzgOracle : F → F → F → F)
    (hOr : ∀ p l r, oracle p l r ≠ 0)
    (srs : TipaSRS F) (k : Nat) (hk : 1 ≤ k) (m_a m_b ck_a ck_b : List F)
    (r_shift : F) (hr : r_shift ≠ 0)
    (ha : m_a.length = 2 ^ k) (hb : m_b.length = 2 ^ k)
    (hca : ck_a.length = 2 ^ k) (hcb : ck_b.length = 2 ^ k)
    (hsrs : srs.g_alpha_powers.length = 2 * 2 ^ k - 1) :
    ∃ P : TipaProof F,
      tipaProveWithSrsShift oracle kzgOracle srs m_a m_b ck_a ck_b r_shift
        = some P := by
  obtain ⟨steps, base, ts, ckB, hrec, hlen, hnz, _⟩ :=
    gipaRecProve_spec oracle hOr k m_a m_b ck_a ck_b 0 ha hb hca hcb
  cases ts with
  | nil => rw [List.length_nil] at hlen; omega
  | cons t0 ts' =>
  have htinv_ne : ∀ x ∈ (t0 :: ts').map (·⁻¹), x ≠ 0 := by
    intro x hx
    obtain ⟨y, hy, rfl⟩ := List.mem_map.mp hx
    exact inv_ne_zero (hnz y hy)
  have hflen : (stripTrailingZeros (polynomial_coefficients_from_transcript
      ((t0 :: ts').map (·⁻¹)) r_shift⁻¹)).length = srs.g_alpha_powers.length := by
    rw [polynomial_coefficients_strip _ _ htinv_ne (inv_ne_zero hr),
      polynomial_coefficients_length, List.length_map, hlen, hsrs]
  exact ⟨_, tipaProveWithSrsShift_unfold oracle kzgOracle srs m_a m_b ck_a ck_b
    r_shift steps base t0 ts' ckB hrec hnz hr hflen⟩

end VerifyTotalLemmas

section PolyCommitLemmas

variable {F : Type} [Field F]

theorem bivariate_evaluate_zipWith_sum (x z : F) :
    ∀ (rows : List (List F)) (pow : F),
      (List.zipWith (fun x_power y_polynomial =>
          x_power * evalList z y_polynomial)
        (sgspLoop rows.length 1 x pow) rows).sum
        = pow * rows.foldr (fun r acc => evalList z r + x * acc) 0 := by
  intro rows
  induction rows with
  | nil => intro pow; simp [sgspLoop]
  | cons r rest ih =>
    intro pow
    simp only [List.length_cons, sgspLoop, List.zipWith_cons_cons,
      List.sum_cons, List.foldr_cons, ih]
    ring

theorem bivariateRows_foldr_eval [DecidableEq F] (z : F) (w : Nat) :
    ∀ (n : Nat) (l : List F), l.length = n * w →
      (bivariateRows w n l).foldr (fun r acc => evalList z r + z ^ w * acc) 0
        = evalList z l := by
  intro n
  induction n with
  | zero =>
    intro l hl
    rw [Nat.zero_mul] at hl
    rw [List.length_eq_zero.mp hl]
    rfl
  | succ n ih =>
    intro l hl
    have hw : w ≤ l.length := by
      rw [hl, Nat.succ_mul]; omega
    simp only [bivariateRows, List.foldr_cons]
    rw [evalList_stripTrailingZeros, ih (l.drop w) (by simp [hl, Nat.succ_mul])]
    conv_rhs => rw [← List.take_append_drop w l]
    rw [evalList_append, List.length_take, Nat.min_eq_left hw]

theorem ceilSqrt_le_sq (m : Nat) : m ≤ ceilSqrt m * ceilSqrt m := by
  unfold ceilSqrt
  by_cases h : Nat.sqrt m * Nat.sqrt m = m
  · rw [if_pos h]; omega
  · rw [if_neg h]
    have := Nat.lt_succ_sqrt m
    have h1 : m < (Nat.sqrt m + 1) * (Nat.sqrt m + 1) := by
      have h2 := Nat.sqrt_lt_self (n := m)
      nlinarith [Nat.lt_succ_sqrt m]
    omega

theorem le_pow_clog_ceilSqrt (m : Nat) :
    ceilSqrt m ≤ 2 ^ Nat.clog 2 (ceilSqrt m) :=
  Nat.le_pow_clog (by norm_num) _

end PolyCommitLemmas

section KzgOpenLemmas

variable {F : Type} [Field F]

theorem stripTrailingZeros_eq_replicate [DecidableEq F] :
    ∀ l : List F, stripTrailingZeros l = [] →
      l = List.replicate l.length 0 := by
  intro l
  induction l with
  | nil => intro _; rfl
  | cons a rest ih =>
    intro h
    simp only [stripTrailingZeros] at h
    rcases hr : stripTrailingZeros rest with _ | ⟨b, t⟩
    · rw [hr] at h
      by_cases ha : a = 0
      · subst ha
        rw [List.length_cons, List.replicate_succ]
        rw [ih hr]
        simp
      · simp [ha] at h
    · rw [hr] at h; simp at h

/-- Every list is its trailing-zero-stripped form followed by zeros. -/
theorem stripTrailingZeros_spec [DecidableEq F] :
    ∀ l : List F, l = stripTrailingZeros l
      ++ List.replicate (l.length - (stripTrailingZeros l).length) 0 := by
  intro l
  induction l with
  | nil => rfl
  | cons a rest ih =>
    simp only [stripTrailingZeros]
    rcases hr : stripTrailingZeros rest with _ | ⟨b, t⟩
    · have hrep := stripTrailingZeros_eq_replicate rest hr
      by_cases ha : a = 0
      · subst ha
        rw [if_pos rfl, List.nil_append]
        have hc : ((0 : F) :: rest).length - ([] : List F).length
            = rest.length + 1 := by simp
        rw [hc]
        conv_lhs => rw [hrep]
        rw [← List.replicate_succ]
      · rw [if_neg ha, List.singleton_append]
        have hc : (a :: rest).length - ([a] : List F).length = rest.length := by
          simp
        rw [hc]
        conv_lhs => rw [hrep]
    · rw [hr] at ih
      have hc : (a :: rest).length - (a :: b :: t).length
          = rest.length - (b :: t).length := by
        simp only [List.length_cons]; omega
      rw [List.cons_append, hc, ← ih]

end KzgOpenLemmas

section MoreIndexLemmas

variable {F : Type} [Field F]

theorem geomList_get? (y : F) : ∀ (n i : Nat) (s : F), i < n →
    (geomList s y n).get? i = some (s * y ^ i) := by
  intro n
  induction n with
  | zero => intro i s h; omega
  | succ n ih =>
    intro i s h
    cases i with
    | zero => simp [geomList]
    | succ i =>
      simp only [geomList, List.get?_cons_succ]
      rw [ih i (s * y) (by omega)]
      congr 1
      rw [pow_succ]
      ring

theorem except_bind_error {ε α β : Type} (e : ε) (f : α → Except ε β) :
    (Except.error e >>= f) = Except.error e := rfl

theorem except_bind_ok {ε α β : Type} (a : α) (f : α → Except ε β) :
    (Except.ok a >>= f) = f a := rfl

theorem except_bind_throw {ε α β : Type} (e : ε) (f : α → Except ε β) :
    ((throw e : Except ε α) >>= f) = Except.error e := rfl

theorem except_bind_pure {ε α β : Type} (a : α) (f : α → Except ε β) :
    ((pure a : Except ε α) >>= f) = f a := rfl

end MoreIndexLemmas

end Ripp

namespace Ripp

/-- A syntactically well-formed TIPA proof with one GIPA round, used to
instantiate the no-panic theorems. -/
def oneRoundProof : TipaProof Fp :=
  { gipa_steps := [((1, 1, 1), (1, 1, 1))], r_base := (1, 1)
    final_ck := (1, 1), final_ck_proof := (1, 1) }

/-- **C2 (counterexample).** At `c = 2`, `split = 1`, `ck_R = [0, 1]` the
fold of the right commitment key computed by `recursive_prove`
(`foldScaleUpper c split ck_R`, i.e. `c·ck_R[n/2:] + ck_R[:n/2]`) differs
from the claimed `c·ck_R[:n/2] + ck_R[n/2:]`: the code yields `[2]`, the
claim `[1]`. -/
theorem c2_counterexample :
    foldScaleUpper (2 : Fp) 1 [0, 1]
      ≠ List.zipWith (fun x y => (2 : Fp) * x + y)
          (([0, 1] : List Fp).take 1) (([0, 1] : List Fp).drop 1) := by
  decide

/-- **C2 (amended).** In a GIPA round on vectors of length `n = 2·split > 1`
with challenge `c = gipaChal …`, the recursion folds with `foldScaleUpper`:
`a' = c·a[n/2:] + a[:n/2]`, `b' = c⁻¹·b[n/2:] + b[:n/2]`,
`ck_L' = c⁻¹·ck_L[n/2:] + ck_L[:n/2]`, and — the amended clause —
`ck_R' = c·ck_R[n/2:] + ck_R[:n/2]` (elementwise), as witnessed by the
recursion equation and the elementwise values. -/
theorem c2_round_folds {F : Type} [Field F]
    (oracle : F → (F × F × F) → (F × F × F) → F)
    (m_a m_b ck_a ck_b : List F) (prev : F) (split i : Nat)
    (ha : m_a.length = 2 * split) (hb : m_b.length = 2 * split)
    (hca : ck_a.length = 2 * split) (hcb : ck_b.length = 2 * split)
    (hsplit : 1 ≤ split) (hi : i < split)
    (hpow : countOnes m_a.length = 1) :
    gipaRecProve oracle m_a m_b ck_a ck_b prev =
      (match gipaRecProve oracle
          (foldScaleUpper (gipaChal oracle m_a m_b ck_a ck_b split prev)
            split m_a)
          (foldScaleUpper (gipaChal oracle m_a m_b ck_a ck_b split prev)⁻¹
            split m_b)
          (foldScaleUpper (gipaChal oracle m_a m_b ck_a ck_b split prev)⁻¹
            split ck_a)
          (foldScaleUpper (gipaChal oracle m_a m_b ck_a ck_b split prev)
            split ck_b)
          (gipaChal oracle m_a m_b ck_a ck_b split prev) with
      | none => none
      | some (steps, base, ts, ckBase) =>
        some (steps ++ [(gipaCom1 m_a m_b ck_a ck_b split,
          gipaCom2 m_a m_b ck_a ck_b split)], base,
          ts ++ [gipaChal oracle m_a m_b ck_a ck_b split prev], ckBase))
    ∧ (foldScaleUpper (gipaChal oracle m_a m_b ck_a ck_b split prev)
        split m_a).get? i
      = some (gipaChal oracle m_a m_b ck_a ck_b split prev
          * m_a.getD (split + i) 0 + m_a.getD i 0)
    ∧ (foldScaleUpper (gipaChal oracle m_a m_b ck_a ck_b split prev)⁻¹
        split m_b).get? i
      = some ((gipaChal oracle m_a m_b ck_a ck_b split prev)⁻¹
          * m_b.getD (split + i) 0 + m_b.getD i 0)
    ∧ (foldScaleUpper (gipaChal oracle m_a m_b ck_a ck_b split prev)⁻¹
        split ck_a).get? i
      = some ((gipaChal oracle m_a m_b ck_a ck_b split prev)⁻¹
          * ck_a.getD (split + i) 0 + ck_a.getD i 0)
    ∧ (foldScaleUpper (gipaChal oracle m_a m_b ck_a ck_b split prev)
        split ck_b).get? i
      = some (gipaChal oracle m_a m_b ck_a ck_b split prev
          * ck_b.getD (split + i) 0 + ck_b.getD i 0) := by
  have h1 : m_a.length ≠ 1 := by omega
  have h2 : 2 ≤ m_a.length := by omega
  have hdiv : m_a.length / 2 = split := by omega
  refine ⟨?_, ?_, ?_, ?_, ?_⟩
  · rw [gipaRecProve_step oracle m_a m_b ck_a ck_b prev h1 ⟨h2, hpow⟩, hdiv]
  · exact foldScaleUpper_get? _ _ _ _ (by omega) hi
  · exact foldScaleUpper_get? _ _ _ _ (by omega) hi
  · exact foldScaleUpper_get? _ _ _ _ (by omega) hi
  · exact foldScaleUpper_get? _ _ _ _ (by omega) hi

/-- Witness for the amended C2 statement at a concrete input. -/
theorem c2_round_folds_witness :
    (foldScaleUpper (gipaChal constOracle [1, 2] [3, 4] [5, 6] [0, 1] 1 7)
        1 [0, 1] : List Fp).get? 0
      = some (gipaChal constOracle [1, 2] [3, 4] [5, 6] [0, 1] 1 7
          * ([0, 1] : List Fp).getD (1 + 0) 0 + ([0, 1] : List Fp).getD 0 0) :=
  (c2_round_folds constOracle [1, 2] [3, 4] [5, 6] [0, 1] 7 1 0
    (by decide) (by decide) (by decide) (by decide) (by decide) (by decide)
    (by rw [show ([1, 2] : List Fp).length = 2 ^ 1 from rfl]
        exact countOnes_two_pow 1)).2.2.2.2

/-- **C4.** The TIPA KZG-challenge rejection loop increments its counter and
terminates as soon as some counter hashes to a valid scalar (here counter 1),
but the GIPA round loop of `gipa/src/lib.rs` never increments its immutable
`counter_nonce = 0`: with the same rejection pattern it re-hashes the same
input forever and never produces a challenge, for any amount of fuel. -/
theorem c4_gipa_loop_never_advances :
    (∀ fuel, gipaChallengeLoop rejectingGipaHash fuel = none)
    ∧ tipaChallengeLoop rejectingTipaHash 0 2 = some 1
    ∧ rejectingGipaHash 1 = some (1, 1) := by
  refine ⟨?_, by decide, by decide⟩
  intro fuel
  induction fuel with
  | zero => rfl
  | succ fuel ih =>
    rw [gipaChallengeLoop]
    simp only [rejectingGipaHash, if_pos]
    exact ih

/-- **C6 (counterexample).** On input vectors of length 3 (not a power of
two) with a wrong announced inner product, `GIPA::prove` returns
`InnerProductInvalid` — the inner-product check at the top of `prove` fires
before the power-of-two length check — not `MessageLengthInvalid` as the
claim requires for every input. -/
theorem c6_counterexample :
    gipaProve constOracle [1, 1, 1] [1, 1, 1] 0 [1, 1, 1] [1, 1, 1] 0 0 0
      = some (.error .InnerProductInvalid) := by
  rw [gipaProve, scalarIpChecked, if_pos rfl]
  simp only [except_bind_ok]
  rw [if_pos (by decide : (sip [1, 1, 1] [1, 1, 1] : Fp) ≠ 0)]
  simp only [except_bind_throw]

/-- **C6 (amended).** `GIPA::prove` returns `MessageLengthInvalid(l, r)` on
input vectors of unequal length (surfaced by the inner-product capability),
and on equal-length vectors with a correctly announced inner product whose
length is not a power of two (including length 0). -/
theorem c6_message_length_invalid {F : Type} [Field F] [DecidableEq F]
    (oracle : F → (F × F × F) → (F × F × F) → F)
    (m_a m_b : List F) (t : F) (ck_a ck_b : List F) (com_a com_b com_t : F) :
    (m_a.length ≠ m_b.length →
      gipaProve oracle m_a m_b t ck_a ck_b com_a com_b com_t
        = some (.error (.MessageLengthInvalid m_a.length m_b.length)))
    ∧ (m_a.length = m_b.length → t = sip m_a m_b →
        (¬ ∃ j, m_a.length = 2 ^ j) →
      gipaProve oracle m_a m_b t ck_a ck_b com_a com_b com_t
        = some (.error (.MessageLengthInvalid m_a.length m_b.length))) := by
  constructor
  · intro hne
    rw [gipaProve, scalarIpChecked, if_neg hne]
    simp only [except_bind_error]
  · intro heq ht hpow
    have hcount : countOnes m_a.length ≠ 1 := by
      intro h
      exact hpow (countOnes_eq_one_imp _ h)
    subst ht
    rw [gipaProve, scalarIpChecked, if_pos heq]
    simp only [except_bind_ok]
    rw [if_neg (fun h => h rfl :
      ¬ sip m_a m_b ≠ sip m_a m_b)]
    simp only [except_bind_pure]
    rw [if_pos hcount]
    simp only [except_bind_throw]

/-- Witness for the amended C6 statement: equal lengths `3`, matching inner
product, not a power of two. -/
theorem c6_message_length_invalid_witness :
    gipaProve constOracle [1, 1, 1] [1, 1, 1] 3 [1, 1, 1] [1, 1, 1] 0 0 0
      = some (.error (.MessageLengthInvalid 3 3)) :=
  (c6_message_length_invalid constOracle [1, 1, 1] [1, 1, 1] 3
    [1, 1, 1] [1, 1, 1] 0 0 0).2 (by decide) (by decide)
    (by
      rintro ⟨j, hj⟩
      have h3 : (3 : Nat) = 2 ^ j := by simpa using hj
      have h1 : countOnes 3 = 1 := by rw [h3]; exact countOnes_two_pow j
      have h2 : countOnes 3 = 2 := by
        rw [countOnes]
        norm_num
        rw [countOnes]
        norm_num
        rw [countOnes_zero]
      omega)

/-- **C7.** `TIPA::setup(rng, n)` materialises `g_alpha_powers = (α^i·g)` and
`h_beta_powers = (β^i·h)` for `i = 0..2n-2`, each of length `2n-1`, and
`SRS::get_commitment_keys` returns their even-indexed subsequences:
`ck_L[i] = β^{2i}·h` in G2 and `ck_R[i] = α^{2i}·g` in G1, each of length `n`
(discrete-log model: `g`, `h` have exponent 1). -/
theorem c7_srs_structure {F : Type} [Field F] (alpha beta : F) (n : Nat)
    (hn : 1 ≤ n) :
    ((tipaSetup alpha beta n : TipaSRS F).g_alpha_powers.length = 2 * n - 1)
    ∧ ((tipaSetup alpha beta n : TipaSRS F).h_beta_powers.length = 2 * n - 1)
    ∧ (∀ i < 2 * n - 1,
        (tipaSetup alpha beta n : TipaSRS F).g_alpha_powers.get? i
          = some (alpha ^ i))
    ∧ (∀ i < 2 * n - 1,
        (tipaSetup alpha beta n : TipaSRS F).h_beta_powers.get? i
          = some (beta ^ i))
    ∧ ((get_commitment_keys (tipaSetup alpha beta n)).1.length = n)
    ∧ ((get_commitment_keys (tipaSetup alpha beta n)).2.length = n)
    ∧ (∀ i < n, (get_commitment_keys (tipaSetup alpha beta n)).1.get? i
        = some (beta ^ (2 * i)))
    ∧ (∀ i < n, (get_commitment_keys (tipaSetup alpha beta n)).2.get? i
        = some (alpha ^ (2 * i))) := by
  have hgA : (tipaSetup alpha beta n : TipaSRS F).g_alpha_powers
      = geomList 1 alpha (2 * n - 1) := structured_generators_eq_geomList _ _ _
  have hhB : (tipaSetup alpha beta n : TipaSRS F).h_beta_powers
      = geomList 1 beta (2 * n - 1) := structured_generators_eq_geomList _ _ _
  have hckA : (get_commitment_keys (tipaSetup alpha beta n)).1
      = geomList 1 (beta * beta) n := stepBy2_structured_generators _ hn _ _
  have hckB : (get_commitment_keys (tipaSetup alpha beta n)).2
      = geomList 1 (alpha * alpha) n := stepBy2_structured_generators _ hn _ _
  refine ⟨by rw [hgA, geomList_length], by rw [hhB, geomList_length],
    ?_, ?_, by rw [hckA, geomList_length], by rw [hckB, geomList_length],
    ?_, ?_⟩
  · intro i hi
    rw [hgA, geomList_get? _ _ _ _ hi, one_mul]
  · intro i hi
    rw [hhB, geomList_get? _ _ _ _ hi, one_mul]
  · intro i hi
    rw [hckA, geomList_get? _ _ _ _ hi, one_mul, ← sq, ← pow_mul]
  · intro i hi
    rw [hckB, geomList_get? _ _ _ _ hi, one_mul, ← sq, ← pow_mul]

/-- Witness for C7 at `n = 2`, `α = 2`, `β = 3` over `ZMod 101`. -/
theorem c7_srs_structure_witness :
    ((tipaSetup (2 : Fp) 3 2 : TipaSRS Fp).g_alpha_powers.length = 2 * 2 - 1)
    ∧ ((tipaSetup (2 : Fp) 3 2 : TipaSRS Fp).h_beta_powers.length = 2 * 2 - 1)
    ∧ (∀ i < 2 * 2 - 1,
        (tipaSetup (2 : Fp) 3 2 : TipaSRS Fp).g_alpha_powers.get? i
          = some ((2 : Fp) ^ i))
    ∧ (∀ i < 2 * 2 - 1,
        (tipaSetup (2 : Fp) 3 2 : TipaSRS Fp).h_beta_powers.get? i
          = some ((3 : Fp) ^ i))
    ∧ ((get_commitment_keys (tipaSetup (2 : Fp) 3 2)).1.length = 2)
    ∧ ((get_commitment_keys (tipaSetup (2 : Fp) 3 2)).2.length = 2)
    ∧ (∀ i < 2, (get_commitment_keys (tipaSetup (2 : Fp) 3 2)).1.get? i
        = some ((3 : Fp) ^ (2 * i)))
    ∧ (∀ i < 2, (get_commitment_keys (tipaSetup (2 : Fp) 3 2)).2.get? i
        = some ((2 : Fp) ^ (2 * i))) :=
  c7_srs_structure (2 : Fp) 3 2 (by decide)

end Ripp

namespace Ripp

/-- **C3.** The `O(k)` product evaluation form computed by
`polynomial_evaluation_product_form_from_transcript(transcript, z, r)` equals
the evaluation at `z` of the dense polynomial whose coefficient vector is
`polynomial_coefficients_from_transcript(transcript, r)` (the product expansion
interleaved with zero coefficients): both sides define the same polynomial
function of `z`. -/
theorem c3_product_form_eq_coefficient_form {F : Type} [Field F]
    (transcript : List F) (z r : F) :
    polynomial_evaluation_product_form_from_transcript transcript z r
      = evalList z (polynomial_coefficients_from_transcript transcript r) := by
  unfold polynomial_evaluation_product_form_from_transcript
    polynomial_coefficients_from_transcript
  rw [evalList_interleaveZero, evalList_coefficientsLoop]
  simp [evalList, pow_one]

end Ripp

namespace Ripp

/-- **C1 (counterexample).** At `k = 0` (`n = 1`) the honest run already
fails: `prove` hits the empty GIPA transcript (the length-1 assertion /
`transcript.first().unwrap()`) and panics instead of producing a proof, so
completeness does not hold for every `k ≥ 0`.  Concretely over `ZMod 101`
with `α = 2`, `β = 3`, `a = [5]`, `b = [2]` and the honest commitment keys,
`TIPA::prove` diverges (modelled `none`). -/
theorem c1_counterexample :
    tipaProve constOracle constKzgOracle (tipaSetup (2 : Fp) 3 1) [5] [2]
      (get_commitment_keys (tipaSetup (2 : Fp) 3 1)).1
      (get_commitment_keys (tipaSetup (2 : Fp) 3 1)).2 = none := by
  rw [tipaProve]
  exact tipaProve_none_of_length_one constOracle constKzgOracle _ _ _ _ _ _ rfl

/-- **C1 (amended).** Completeness of TIPA for every vector length
`n = 2 ^ k` with `k ≥ 1`: for an honestly generated SRS of size `n`,
commitment keys from `SRS::get_commitment_keys`, message vectors `(a, b)`
of length `n` and the honest commitments
`(C_L, C_R, C_T) = (commit(ck_L, a), commit(ck_R, b), ⟨a, b⟩)`,
`TIPA::prove` succeeds and `TIPA::verify` accepts its proof, for every
challenge oracle that only emits invertible challenges (the rejection
sampling of `counter_nonce` guarantees a valid scalar; invertibility holds
with overwhelming probability and is what the code's `.inverse().unwrap()`
assumes). -/
theorem c1_tipa_completeness {F : Type} [Field F] [DecidableEq F]
    (oracle : F → (F × F × F) → (F × F × F) → F) (kzgOracle : F → F → F → F)
    (hOr : ∀ p l r, oracle p l r ≠ 0)
    (k : Nat) (hk : 1 ≤ k) (alpha beta : F) (a b : List F)
    (ha : a.length = 2 ^ k) (hb : b.length = 2 ^ k) :
    ∃ P : TipaProof F,
      tipaProve oracle kzgOracle (tipaSetup alpha beta (2 ^ k)) a b
          (get_commitment_keys (tipaSetup alpha beta (2 ^ k))).1
          (get_commitment_keys (tipaSetup alpha beta (2 ^ k))).2 = some P ∧
      ∀ ck_t : F,
        tipaVerify oracle kzgOracle
            (get_verifier_key (tipaSetup alpha beta (2 ^ k))) ck_t
            (pedersenCommit
                (get_commitment_keys (tipaSetup alpha beta (2 ^ k))).1 a,
             pedersenCommit
                (get_commitment_keys (tipaSetup alpha beta (2 ^ k))).2 b,
             sip a b) P = some true :=
  tipa_honest_run oracle kzgOracle hOr k hk alpha beta a b ha hb

/-- Witness for the amended C1 statement at `k = 1`, `α = 2`, `β = 3`,
`a = [5, 6]`, `b = [2, 3]` over `ZMod 101`. -/
theorem c1_tipa_completeness_witness :
    ∃ P : TipaProof Fp,
      tipaProve constOracle constKzgOracle (tipaSetup (2 : Fp) 3 (2 ^ 1))
          [5, 6] [2, 3]
          (get_commitment_keys (tipaSetup (2 : Fp) 3 (2 ^ 1))).1
          (get_commitment_keys (tipaSetup (2 : Fp) 3 (2 ^ 1))).2 = some P ∧
      ∀ ck_t : Fp,
        tipaVerify constOracle constKzgOracle
            (get_verifier_key (tipaSetup (2 : Fp) 3 (2 ^ 1))) ck_t
            (pedersenCommit
                (get_commitment_keys (tipaSetup (2 : Fp) 3 (2 ^ 1))).1 [5, 6],
             pedersenCommit
                (get_commitment_keys (tipaSetup (2 : Fp) 3 (2 ^ 1))).2 [2, 3],
             sip [5, 6] [2, 3]) P = some true :=
  c1_tipa_completeness constOracle constKzgOracle (fun _ _ _ => by show (2 : Fp) ≠ 0; decide)
    1 (by decide) 2 3 [5, 6] [2, 3] (by decide) (by decide)

/-- **C5 (counterexample).** The verifier does panic on a malformed proof:
on a proof with zero GIPA round records the recomputed challenge transcript
is empty and `transcript.first().unwrap()` panics (modelled `none`) instead
of returning `Ok(false)`. -/
theorem c5_counterexample :
    tipaVerify constOracle constKzgOracle
      (get_verifier_key (tipaSetup (2 : Fp) 3 2)) 0 (1, 1, 1)
      emptyRoundsProof = none := by
  rw [tipaVerify]
  exact tipaVerify_none_of_no_rounds constOracle constKzgOracle _ _ _ _ _ rfl

/-- **C5 (amended).** For every well-formed verifier SRS, commitment input
and shift `r ≠ 0`, and every proof value whose GIPA round list is nonempty
(so the recomputed transcript is nonempty), the verifier never panics: with
a challenge oracle emitting only invertible challenges (what rejection
sampling plus `.inverse().unwrap()` assume), `verify_with_srs_shift` always
returns `Ok(b)` for some boolean `b` — failures surface as `Ok(false)`, not
as a panic. -/
theorem c5_verifier_total {F : Type} [Field F] [DecidableEq F]
    (oracle : F → (F × F × F) → (F × F × F) → F) (kzgOracle : F → F → F → F)
    (hOr : ∀ p l r, oracle p l r ≠ 0)
    (v_srs : VerifierSRSModel F) (ck_t : F) (com : F × F × F)
    (P : TipaProof F) (r_shift : F)
    (hsteps : P.gipa_steps ≠ []) (hr : r_shift ≠ 0) :
    ∃ bl : Bool,
      tipaVerifyWithSrsShift oracle kzgOracle v_srs ck_t com P r_shift
        = some bl :=
  tipaVerify_total oracle kzgOracle hOr v_srs ck_t com P r_shift hsteps hr

/-- Witness for the amended C5 statement on a concrete one-round proof. -/
theorem c5_verifier_total_witness :
    ∃ bl : Bool,
      tipaVerifyWithSrsShift constOracle constKzgOracle
        (get_verifier_key (tipaSetup (2 : Fp) 3 2)) 0 (1, 1, 1)
        oneRoundProof 1 = some bl :=
  c5_verifier_total constOracle constKzgOracle (fun _ _ _ => by show (2 : Fp) ≠ 0; decide)
    (get_verifier_key (tipaSetup (2 : Fp) 3 2)) 0 (1, 1, 1)
    oneRoundProof 1 (by decide) (by decide)

/-- **C10.** Both `prove_with_srs_shift` and `verify_with_srs_shift` hit
`transcript.first().unwrap()`: (i) on length-1 left vectors (`k = 0`, zero
rounds) the prover's transcript is empty and it panics (modelled `none`);
(ii) on protocol-valid inputs of length `2 ^ k`, `k ≥ 1`, with a matching
SRS, nonzero shift and an oracle emitting invertible challenges, the
transcript is nonempty and the prover returns a proof; (iii) the verifier
panics on a proof with zero round records (empty recomputed transcript);
(iv) on a proof with at least one round record and nonzero shift the
verifier's unwraps succeed and it returns `Ok(b)`. -/
theorem c10_transcript_head_unwrap {F : Type} [Field F] [DecidableEq F]
    (oracle : F → (F × F × F) → (F × F × F) → F) (kzgOracle : F → F → F → F)
    (hOr : ∀ p l r, oracle p l r ≠ 0) :
    (∀ (srs : TipaSRS F) (m_a m_b ck_a ck_b : List F) (r_shift : F),
        m_a.length = 1 →
        tipaProveWithSrsShift oracle kzgOracle srs m_a m_b ck_a ck_b r_shift
          = none)
    ∧ (∀ (srs : TipaSRS F) (k : Nat), 1 ≤ k →
        ∀ (m_a m_b ck_a ck_b : List F) (r_shift : F), r_shift ≠ 0 →
        m_a.length = 2 ^ k → m_b.length = 2 ^ k →
        ck_a.length = 2 ^ k → ck_b.length = 2 ^ k →
        srs.g_alpha_powers.length = 2 * 2 ^ k - 1 →
        ∃ P : TipaProof F,
          tipaProveWithSrsShift oracle kzgOracle srs m_a m_b ck_a ck_b r_shift
            = some P)
    ∧ (∀ (v_srs : VerifierSRSModel F) (ck_t : F) (com : F × F × F)
          (P : TipaProof F) (r_shift : F), P.gipa_steps = [] →
        tipaVerifyWithSrsShift oracle kzgOracle v_srs ck_t com P r_shift
          = none)
    ∧ (∀ (v_srs : VerifierSRSModel F) (ck_t : F) (com : F × F × F)
          (P : TipaProof F) (r_shift : F), P.gipa_steps ≠ [] → r_shift ≠ 0 →
        ∃ bl : Bool,
          tipaVerifyWithSrsShift oracle kzgOracle v_srs ck_t com P r_shift
            = some bl) :=
  ⟨fun srs m_a m_b ck_a ck_b r_shift ha =>
      tipaProve_none_of_length_one oracle kzgOracle srs m_a m_b ck_a ck_b
        r_shift ha,
   fun srs k hk m_a m_b ck_a ck_b r_shift hr ha hb hca hcb hsrs =>
      tipaProve_total oracle kzgOracle hOr srs k hk m_a m_b ck_a ck_b
        r_shift hr ha hb hca hcb hsrs,
   fun v_srs ck_t com P r_shift hst =>
      tipaVerify_none_of_no_rounds oracle kzgOracle v_srs ck_t com P
        r_shift hst,
   fun v_srs ck_t com P r_shift hst hr =>
      tipaVerify_total oracle kzgOracle hOr v_srs ck_t com P r_shift hst hr⟩

/-- Witness for C10 over `ZMod 101`: prover panic at length 1, prover
success at length 2, verifier panic at zero rounds, verifier success at one
round. -/
theorem c10_transcript_head_unwrap_witness :
    tipaProveWithSrsShift constOracle constKzgOracle (tipaSetup (2 : Fp) 3 1)
        [5] [2] [1] [1] 1 = none
    ∧ (∃ P : TipaProof Fp,
        tipaProveWithSrsShift constOracle constKzgOracle
          (tipaSetup (2 : Fp) 3 2) [5, 6] [2, 3] [1, 9] [1, 4] 1 = some P)
    ∧ tipaVerifyWithSrsShift constOracle constKzgOracle
        (get_verifier_key (tipaSetup (2 : Fp) 3 2)) 0 (1, 1, 1)
        emptyRoundsProof 1 = none
    ∧ (∃ bl : Bool, tipaVerifyWithSrsShift constOracle constKzgOracle
        (get_verifier_key (tipaSetup (2 : Fp) 3 2)) 0 (1, 1, 1)
        oneRoundProof 1 = some bl) :=
  ⟨(c10_transcript_head_unwrap constOracle constKzgOracle
      (fun _ _ _ => by show (2 : Fp) ≠ 0; decide)).1 _ _ _ _ _ _ rfl,
   (c10_transcript_head_unwrap constOracle constKzgOracle
      (fun _ _ _ => by show (2 : Fp) ≠ 0; decide)).2.1 _ 1 (by decide) _ _ _ _ _ (by decide)
      rfl rfl rfl rfl (by decide),
   (c10_transcript_head_unwrap constOracle constKzgOracle
      (fun _ _ _ => by show (2 : Fp) ≠ 0; decide)).2.2.1 _ _ _ _ _ rfl,
   (c10_transcript_head_unwrap constOracle constKzgOracle
      (fun _ _ _ => by show (2 : Fp) ≠ 0; decide)).2.2.2 _ _ _ _ _ (by decide) (by decide)⟩

end Ripp

namespace Ripp

/-- **C8.** With `b = bivariate_degrees d + 1 = ⌈√(d+1)⌉` rounded up to the
next power of two, the bivariate form of any coefficient vector of length at
most `d + 1` is a `b × b` grid whose bivariate evaluation at the point
`(z^b, z)` used by `UnivariatePolynomialCommitment::open`/`verify` recovers
the univariate evaluation at `z`; in particular `d = 56` maps to bivariate
degrees `7 × 7`. -/
theorem c8_bivariate_decomposition {F : Type} [Field F] [DecidableEq F]
    (d : Nat) (p : List F) (z : F) (hp : p.length ≤ d + 1) :
    bivariate_degrees d + 1 = 2 ^ Nat.clog 2 (ceilSqrt (d + 1))
    ∧ bivariate_evaluate (bivariate_form (bivariate_degrees d) p)
        (univariateOpenPoint (bivariate_degrees d) z) = evalList z p
    ∧ bivariate_degrees 56 = 7 := by
  have hpow1 : 1 ≤ 2 ^ Nat.clog 2 (ceilSqrt (d + 1)) := Nat.one_le_two_pow
  have hbd : bivariate_degrees d + 1 = 2 ^ Nat.clog 2 (ceilSqrt (d + 1)) := by
    unfold bivariate_degrees
    omega
  refine ⟨hbd, ?_, ?_⟩
  · have hle : ceilSqrt (d + 1) ≤ bivariate_degrees d + 1 := by
      rw [hbd]
      exact le_pow_clog_ceilSqrt (d + 1)
    have hw : d + 1 ≤ (bivariate_degrees d + 1) * (bivariate_degrees d + 1) :=
      le_trans (ceilSqrt_le_sq (d + 1)) (Nat.mul_le_mul hle hle)
    have hplen : p.length
        ≤ (bivariate_degrees d + 1) * (bivariate_degrees d + 1) :=
      le_trans hp hw
    rw [show univariateOpenPoint (bivariate_degrees d) z
        = (z ^ (bivariate_degrees d + 1), z) from rfl,
      bivariate_form, bivariate_evaluate]
    dsimp only
    rw [bivariate_evaluate_zipWith_sum (z ^ (bivariate_degrees d + 1)) z _ 1,
      one_mul,
      bivariateRows_foldr_eval z (bivariate_degrees d + 1)
        (bivariate_degrees d + 1) _ (by rw [listResize_length]),
      evalList_listResize z p _ hplen]
  · have h1 : 7 ≤ Nat.sqrt 57 := Nat.le_sqrt.mpr (by norm_num)
    have h2 : Nat.sqrt 57 < 8 := Nat.sqrt_lt.mpr (by norm_num)
    have hs : Nat.sqrt 57 = 7 := by omega
    have hc : ceilSqrt (56 + 1) = 8 := by
      rw [ceilSqrt, hs]
      norm_num
    rw [bivariate_degrees, hc, show (8 : Nat) = 2 ^ 3 by norm_num,
      Nat.clog_pow 2 3 (by norm_num)]
    norm_num

/-- Witness for C8 at `d = 56`, `p = [1, 2, 3]`, `z = 2` over `ZMod 101`. -/
theorem c8_bivariate_decomposition_witness :
    bivariate_degrees 56 + 1 = 2 ^ Nat.clog 2 (ceilSqrt (56 + 1))
    ∧ bivariate_evaluate (bivariate_form (bivariate_degrees 56)
          ([1, 2, 3] : List Fp))
        (univariateOpenPoint (bivariate_degrees 56) (2 : Fp))
      = evalList 2 [1, 2, 3]
    ∧ bivariate_degrees 56 = 7 :=
  c8_bivariate_decomposition 56 [1, 2, 3] 2 (by decide)

/-- **C9.** Dividing `p(X)` directly by `X - z` and discarding the remainder
(the `KZG::open` quotient) yields, after the `resize` to SRS length, the same
quotient coefficient vector as first subtracting the evaluation `p(z)` and
dividing `p(X) - p(z)` by `X - z` (the quotient construction of
`prove_with_srs_shift`); hence `KZG::open` returns exactly the
multiexponentiation of the subtract-then-divide quotient. -/
theorem c9_kzg_open_direct_division {F : Type} [Field F] [DecidableEq F]
    (powers p : List F) (z : F)
    (h1 : 1 ≤ powers.length) (hlen : p.length ≤ powers.length) :
    listResize (polyDivXSubC (subConst p (evalList z p)) z).1 powers.length
      = listResize (polyDivXSubC p z).1 powers.length
    ∧ kzgOpen powers p z
      = some (msm powers
          (listResize (polyDivXSubC (subConst p (evalList z p)) z).1
            powers.length)) := by
  have key : listResize (polyDivXSubC (subConst p (evalList z p)) z).1
        powers.length
      = listResize (polyDivXSubC p z).1 powers.length := by
    cases p with
    | nil =>
      have hnil : subConst ([] : List F) (evalList z ([] : List F)) = [] := by
        simp [subConst, stripTrailingZeros]
      rw [hnil]
    | cons a rest =>
      have hsubc : subConst (a :: rest) (evalList z (a :: rest))
          = stripTrailingZeros ((a - evalList z (a :: rest)) :: rest) := rfl
      have hq_eq : (polyDivXSubC ((a - evalList z (a :: rest)) :: rest) z).1
          = (polyDivXSubC (a :: rest) z).1 := rfl
      have hspec := stripTrailingZeros_spec
        ((a - evalList z (a :: rest)) :: rest)
      have hstriplen := stripTrailingZeros_length_le
        ((a - evalList z (a :: rest)) :: rest)
      have hq2 : (polyDivXSubC ((a - evalList z (a :: rest)) :: rest) z).1
          = (polyDivXSubC (stripTrailingZeros
              ((a - evalList z (a :: rest)) :: rest)) z).1
            ++ List.replicate
                (((a - evalList z (a :: rest)) :: rest).length
                  - (stripTrailingZeros
                      ((a - evalList z (a :: rest)) :: rest)).length) 0 := by
        conv_lhs => rw [hspec]
        rw [polyDivXSubC_append_replicate_zero]
      have habs : (polyDivXSubC (stripTrailingZeros
            ((a - evalList z (a :: rest)) :: rest)) z).1.length
          + (((a - evalList z (a :: rest)) :: rest).length
              - (stripTrailingZeros
                  ((a - evalList z (a :: rest)) :: rest)).length)
          ≤ powers.length := by
        rw [polyDivXSubC_fst_length]
        simp only [List.length_cons] at *
        omega
      rw [hsubc, ← hq_eq, hq2, listResize_append_replicate_zero _ _ _ habs]
  have hguard : Nat.max 1 (stripTrailingZeros p).length ≤ powers.length := by
    have hst := stripTrailingZeros_length_le p
    rw [Nat.max_le]
    exact ⟨h1, le_trans hst hlen⟩
  refine ⟨key, ?_⟩
  rw [kzgOpen, if_pos hguard, key]

/-- Witness for C9 at `powers = [1, 2, 3]`, `p = [4, 5]`, `z = 7` over
`ZMod 101`. -/
theorem c9_kzg_open_direct_division_witness :
    listResize (polyDivXSubC (subConst ([4, 5] : List Fp)
          (evalList (7 : Fp) [4, 5])) 7).1 ([1, 2, 3] : List Fp).length
      = listResize (polyDivXSubC ([4, 5] : List Fp) 7).1
          ([1, 2, 3] : List Fp).length
    ∧ kzgOpen ([1, 2, 3] : List Fp) [4, 5] 7
      = some (msm [1, 2, 3]
          (listResize (polyDivXSubC (subConst ([4, 5] : List Fp)
              (evalList (7 : Fp) [4, 5])) 7).1
            ([1, 2, 3] : List Fp).length)) :=
  c9_kzg_open_direct_division [1, 2, 3] [4, 5] 7 (by decide) (by decide)

end Ripp
